import Mathlib

/-!
A verification development for the federation prototype: the mutable schema
object model (types, fields, referencers, copying), the `@override`
composition rules, the shareable-field precomputation, and the query-planner
scope algebra.  Each part is a shallow embedding of the corresponding
TypeScript source; JavaScript 32-bit integer operations are modelled on `Int`
with explicit wrapping, JavaScript `Map`s are modelled as insertion-ordered
association lists, and thrown exceptions are modelled with `Except`.
-/

namespace Scopes

/-- GraphQL AST value nodes (`ValueNode`).  Numeric literals keep their raw
source string, exactly as `IntValue`/`FloatValue` AST nodes do.  String
values are assumed not to need escape sequences and characters are assumed
to be in the basic multilingual plane (so that one `Char` is one UTF-16 code
unit, as used by `charCodeAt`). -/
inductive JValue where
  | vvar (name : String)
  | vint (value : String)
  | vfloat (value : String)
  | vstr (value : String)
  | venum (value : String)
  | vbool (value : Bool)
  | vnull
  | vlist (values : List JValue)
  | vobj (fields : List (String × JValue))

/-- A directive application AST node (`DirectiveNode`): a name plus named
arguments in source order.  An absent argument list and an empty one are
identified (both print and hash identically in the source). -/
structure DirNode where
  name : String
  args : List (String × JValue)

/-- `stripIgnoredCharacters(print(v))` for a value node: the canonical
compact printing of a GraphQL value, with no insignificant whitespace. -/
def printValue : JValue → String
  | .vvar n => "$" ++ n
  | .vint v => v
  | .vfloat v => v
  | .vstr v => "\"" ++ v ++ "\""
  | .venum v => v
  | .vbool b => toString b
  | .vnull => "null"
  | .vlist vs => "[" ++ String.intercalate "," (vs.attach.map fun x => printValue x.1) ++ "]"
  | .vobj fs =>
    "\x7b" ++ String.intercalate ","
      (fs.attach.map fun x => x.1.1 ++ ":" ++ printValue x.1.2) ++ "\x7d"
decreasing_by
  · have := List.sizeOf_lt_of_mem x.2
    simp_all
    omega
  · have := List.sizeOf_lt_of_mem x.2
    rcases x with ⟨⟨n, v⟩, hv⟩
    simp_all [Prod.mk.sizeOf_spec]
    omega

/-- `Scope.directiveToString`: `stripIgnoredCharacters(print(d))`. -/
def directiveToString (d : DirNode) : String :=
  "@" ++ d.name ++
    (if d.args.isEmpty then ""
     else "(" ++ String.intercalate "," (d.args.map fun a => a.1 ++ ":" ++ printValue a.2) ++ ")")

/-- Wrap an integer to a signed 32-bit value, as JavaScript `| 0` does. -/
def wrap32 (x : Int) : Int := (x + 2 ^ 31) % 2 ^ 32 - 2 ^ 31

/-- `Math.imul`: signed 32-bit multiplication. -/
def imul32 (a b : Int) : Int := wrap32 (a * b)

/-- `Scope.stringHash`: `h = Math.imul(31, h) + s.charCodeAt(i) | 0` over the
code units of `s`, starting from 31. -/
def stringHash (s : String) : Int :=
  s.data.foldl (fun h c => wrap32 (imul32 31 h + c.toNat)) 31

/-- JavaScript string comparison (`<` on strings, as used by `Array.sort()`):
lexicographic comparison of code units. -/
def charListLt : List Char → List Char → Bool
  | _, [] => false
  | [], _ :: _ => true
  | a :: as', b :: bs => decide (a < b) || (decide (a = b) && charListLt as' bs)

/-- `a ≤ b` for JavaScript strings: not `b < a`. -/
def strLeB (a b : String) : Bool := !(charListLt b.data a.data)

/-- Insert into a sorted list of strings (helper for `sortStrings`). -/
def insertSorted (a : String) : List String → List String
  | [] => [a]
  | b :: bs => if strLeB a b then a :: b :: bs else b :: insertSorted a bs

/-- JavaScript `Array.sort()` on strings (default comparator): a sort of the
list under code-unit lexicographic order. -/
def sortStrings : List String → List String
  | [] => []
  | a :: as' => insertSorted a (sortStrings as')

theorem charListLt_irrefl (l : List Char) : charListLt l l = false := by
  induction l with
  | nil => rfl
  | cons a as' ih => simp [charListLt, ih]

theorem eq_of_not_lt_of_not_lt {a b : List Char}
    (h1 : charListLt a b = false) (h2 : charListLt b a = false) : a = b := by
  induction a generalizing b with
  | nil =>
    cases b with
    | nil => rfl
    | cons b bs => simp [charListLt] at h1
  | cons a as' ih =>
    cases b with
    | nil => simp [charListLt] at h2
    | cons b bs =>
      simp only [charListLt, Bool.or_eq_false_iff, Bool.and_eq_false_iff,
        decide_eq_false_iff_not] at h1 h2
      obtain ⟨hab, h1'⟩ := h1
      obtain ⟨hba, h2'⟩ := h2
      have heq : a = b := le_antisymm (not_lt.mp hba) (not_lt.mp hab)
      subst heq
      have e1 : charListLt as' bs = false := by
        rcases h1' with h | h
        · exact absurd rfl h
        · exact h
      have e2 : charListLt bs as' = false := by
        rcases h2' with h | h
        · exact absurd rfl h
        · exact h
      exact congrArg (List.cons a) (ih e1 e2)

theorem charListLt_asymm {a b : List Char} (h : charListLt a b = true) :
    charListLt b a = false := by
  induction a generalizing b with
  | nil =>
    cases b with
    | nil => rfl
    | cons b bs => rfl
  | cons a as' ih =>
    cases b with
    | nil => simp [charListLt] at h
    | cons b bs =>
      simp only [charListLt, Bool.or_eq_true, Bool.and_eq_true,
        decide_eq_true_eq] at h
      simp only [charListLt, Bool.or_eq_false_iff, Bool.and_eq_false_iff,
        decide_eq_false_iff_not]
      rcases h with hlt | ⟨heq, hrest⟩
      · exact ⟨lt_asymm hlt, Or.inl (ne_of_gt hlt)⟩
      · subst heq
        exact ⟨lt_irrefl a, Or.inr (ih hrest)⟩

theorem strLeB_total (a b : String) : strLeB a b = true ∨ strLeB b a = true := by
  by_cases h : charListLt b.data a.data = true
  · right
    simp [strLeB, charListLt_asymm h]
  · left
    simp [strLeB]
    exact Bool.eq_false_iff.mpr h

/-- The fragment of the stock GraphQL type system that the scope algebra
consults, an external collaborator of the planner (`graphql-js`).  Named
composite types stand for their name; `possibleMap` is
`schema.getPossibleTypes` on abstract types and `subTypeRel` the graph of
`isTypeSubTypeOf`. -/
structure TypeEnv where
  abstractTypes : List String
  possibleMap : List (String × List String)
  subTypeRel : List (String × String)

/-- `isAbstractType` of `graphql-js` over the modelled environment. -/
def TypeEnv.isAbstractType (env : TypeEnv) (t : String) : Bool :=
  env.abstractTypes.contains t

/-- `schema.getPossibleTypes` of `graphql-js` over the modelled environment. -/
def TypeEnv.schemaPossibleTypes (env : TypeEnv) (t : String) : List String :=
  (env.possibleMap.lookup t).getD []

/-- `isTypeSubTypeOf(schema, a, b)` of `graphql-js` over the modelled
environment. -/
def TypeEnv.isTypeSubTypeOf (env : TypeEnv) (a b : String) : Bool :=
  decide ((a, b) ∈ env.subTypeRel)

/-- `QueryPlanningContext.getPossibleTypes`: the type itself for an object
type, the schema's possible types for an abstract type. -/
def getPossibleTypes (env : TypeEnv) (t : String) : List String :=
  if env.isAbstractType t then env.schemaPossibleTypes t else [t]

/-- One link of a scope's refinement chain: a parent composite type plus the
optional directives of the fragment that introduced the link. -/
structure ScopeLink where
  parentType : String
  directives : Option (List DirNode)

/-- A `Scope`: a refinement chain, non-empty, most recent link first.  The
source's `enclosing: Scope | undefined` linked list is flattened into the
head link plus the list of enclosing links. -/
structure Scope where
  parentType : String
  directives : Option (List DirNode)
  enclosing : List ScopeLink

/-- The whole chain of a scope, head link first. -/
def Scope.chain (s : Scope) : List ScopeLink :=
  ⟨s.parentType, s.directives⟩ :: s.enclosing

/-- `Scope.create(context, parentType)`: a root scope. -/
def Scope.create (parentType : String) : Scope :=
  ⟨parentType, none, []⟩

/-- `Scope.isStrictlyRefinedBy`: false iff some type in the chain is a
subtype of the provided type. -/
def Scope.isStrictlyRefinedBy (env : TypeEnv) (s : Scope) (type : String) : Bool :=
  !(s.chain.any fun l => env.isTypeSubTypeOf l.parentType type)

/-- `Scope.pruneRefinedTypes`: drop every link that has no directives and
whose parent type is a supertype of the refining type. -/
def pruneRefinedTypes (env : TypeEnv) (refiningType : String) :
    List ScopeLink → List ScopeLink
  | [] => []
  | l :: rest =>
    if l.directives.isNone ∧ env.isTypeSubTypeOf refiningType l.parentType then
      pruneRefinedTypes env refiningType rest
    else
      l :: pruneRefinedTypes env refiningType rest

/-- `Scope.refine(type, directives)`: push a refinement link, treating an
empty directive list as absent, returning the scope unchanged when a
directive-less condition does not strictly refine it, and pruning redundant
directive-less links otherwise. -/
def Scope.refine (env : TypeEnv) (s : Scope) (type : String)
    (dirs : Option (List DirNode)) : Scope :=
  let directives : Option (List DirNode) :=
    match dirs with
    | some [] => none
    | d => d
  match directives with
  | some ds => ⟨type, some ds, s.chain⟩
  | none =>
    if !(s.isStrictlyRefinedBy env type) then s
    else ⟨type, none, pruneRefinedTypes env type s.chain⟩

/-- The loop of `Scope.computePossibleRuntimeTypes`: filter the accumulated
possible types by each enclosing link's possible types. -/
def filterByChain (env : TypeEnv) (acc : List String) :
    List ScopeLink → List String
  | [] => acc
  | l :: rest =>
    filterByChain env
      (acc.filter fun t => (getPossibleTypes env l.parentType).contains t) rest

/-- `Scope.possibleRuntimeTypes` (caching elided): the intersection of the
possible types of every condition in scope. -/
def Scope.possibleRuntimeTypes (env : TypeEnv) (s : Scope) : List String :=
  filterByChain env (getPossibleTypes env s.parentType) s.enclosing

/-- The index loop of `Scope.directivesEquals` comparing the two sorted
string arrays over the indices of the first. -/
def cmpStrings : List String → List String → Bool
  | [], _ => true
  | a :: as', b :: bs => a == b && cmpStrings as' bs
  | _ :: _, [] => false

/-- `Scope.directivesEquals`: both absent, or same length and equal printed
representations after sorting both sides. -/
def directivesEquals : Option (List DirNode) → Option (List DirNode) → Bool
  | none, d2 => d2.isNone
  | some _, none => false
  | some d1, some d2 =>
    if d1.length ≠ d2.length then false
    else
      cmpStrings (sortStrings (d1.map directiveToString))
        (sortStrings (d2.map directiveToString))

/-- The lock-step chain walk of `Scope.equals`, including the final check
that both chains end together. -/
def linksEquals : List ScopeLink → List ScopeLink → Bool
  | [], [] => true
  | l1 :: r1, l2 :: r2 =>
    l1.parentType == l2.parentType && directivesEquals l1.directives l2.directives &&
      linksEquals r1 r2
  | _, _ => false

/-- `Scope.equals`: structural comparison walking both chains in lock step.
Parent types are compared by name; within a single planning context the
`graphql-js` type objects compared by `!==` in the source are unique per
name. -/
def Scope.equals (s1 s2 : Scope) : Bool :=
  linksEquals s1.chain s2.chain

/-- `Scope.hashCode`: the parent type's name hash, plus — when directives
are present — an order-sensitive 31-ary fold of the printed directives'
hashes, truncated to 32 bits. -/
def Scope.hashCode (s : Scope) : Int :=
  let hash := stringHash s.parentType
  let hash :=
    match s.directives with
    | none => hash
    | some ds =>
      hash +
        (ds.map fun d => stringHash (directiveToString d)).foldl
          (fun prev curr => wrap32 (imul32 31 prev + curr)) 31
  wrap32 hash

/-- `Scope.valueIdentityKey`: the canonical identity string of a value node. -/
def valueIdentityKey : JValue → String
  | .vvar n => n
  | .vint v => v
  | .vfloat v => v
  | .vstr v => v
  | .venum v => v
  | .vbool b => toString b
  | .vnull => "<null>"
  | .vlist vs =>
    String.intercalate "-" (vs.attach.map fun x => valueIdentityKey x.1)
  | .vobj fs =>
    String.intercalate "-"
      (fs.attach.map fun x => x.1.1 ++ "-" ++ valueIdentityKey x.1.2)
decreasing_by
  · have := List.sizeOf_lt_of_mem x.2
    simp_all
    omega
  · have := List.sizeOf_lt_of_mem x.2
    rcases x with ⟨⟨n, v⟩, hv⟩
    simp_all [Prod.mk.sizeOf_spec]
    omega

/-- `Scope.directiveIdentityKey`: name plus dash-joined argument keys. -/
def directiveIdentityKey (d : DirNode) : String :=
  d.name ++ "-" ++ String.intercalate "-" (d.args.map fun a => a.1 ++ "-" ++ valueIdentityKey a.2)

/-- Modelled from the spec: `identity_key()` of the scope algebra — "a
canonical string built from `parent.name` plus ordered possible-types names
plus a canonicalized directive representation".  The refinement-chain `Scope`
in the source does not carry this method; only an earlier revision of the
class (with an explicit possible-types array) does, and this definition
follows that canonical form, taking the chain's possible runtime types as
the possible types. -/
def Scope.identityKey (env : TypeEnv) (s : Scope) : String :=
  let directivesKey :=
    match s.directives with
    | none => ""
    | some ds => String.intercalate "-" (ds.map directiveIdentityKey)
  s.parentType ++ "-" ++
    String.intercalate "-" (sortStrings (s.possibleRuntimeTypes env)) ++ "-" ++ directivesKey

theorem mem_filterByChain (env : TypeEnv) (links : List ScopeLink)
    (acc : List String) (x : String) :
    x ∈ filterByChain env acc links ↔
      x ∈ acc ∧ ∀ l ∈ links, x ∈ getPossibleTypes env l.parentType := by
  induction links generalizing acc with
  | nil => simp [filterByChain]
  | cons l rest ih =>
    simp only [filterByChain, ih, List.mem_filter, List.mem_cons]
    constructor
    · rintro ⟨⟨hacc, hl⟩, hrest⟩
      refine ⟨hacc, ?_⟩
      rintro l' (rfl | hl')
      · simpa using hl
      · exact hrest l' hl'
    · rintro ⟨hacc, hall⟩
      exact ⟨⟨hacc, by simpa using hall l (Or.inl rfl)⟩, fun l' hl' => hall l' (Or.inr hl')⟩

theorem mem_possibleRuntimeTypes (env : TypeEnv) (s : Scope) (x : String) :
    x ∈ s.possibleRuntimeTypes env ↔
      ∀ l ∈ s.chain, x ∈ getPossibleTypes env l.parentType := by
  simp only [Scope.possibleRuntimeTypes, mem_filterByChain, Scope.chain, List.mem_cons]
  constructor
  · rintro ⟨hhead, hrest⟩ l (rfl | hl)
    · exact hhead
    · exact hrest l hl
  · intro h
    exact ⟨h _ (Or.inl rfl), fun l hl => h l (Or.inr hl)⟩

theorem mem_pruneRefinedTypes_of_mem (env : TypeEnv) (t : String)
    {links : List ScopeLink} {l : ScopeLink} (hl : l ∈ links) :
    l ∈ pruneRefinedTypes env t links ∨
      (l.directives = none ∧ env.isTypeSubTypeOf t l.parentType = true) := by
  induction links with
  | nil => cases hl
  | cons a rest ih =>
    rcases List.mem_cons.mp hl with rfl | hmem
    · by_cases hc : l.directives.isNone ∧ env.isTypeSubTypeOf t l.parentType
      · right
        exact ⟨Option.isNone_iff_eq_none.mp hc.1, hc.2⟩
      · left
        simp only [pruneRefinedTypes, if_neg hc]
        exact List.mem_cons_self _ _
    · rcases ih hmem with h | h
      · left
        by_cases hc : a.directives.isNone ∧ env.isTypeSubTypeOf t a.parentType
        · simpa only [pruneRefinedTypes, if_pos hc] using h
        · simp only [pruneRefinedTypes, if_neg hc]
          exact List.mem_cons_of_mem _ h
      · right
        exact h

/-- C7: for every scope `s` and every composite type `type` (with or without
fragment directives), the possible runtime types of `s.refine(type, dirs)`
are a subset of the possible runtime types of `s`, including when `refine`
prunes older directive-less links from the chain.  The hypothesis states the
soundness of the external `isTypeSubTypeOf` relation with respect to
possible types, which holds for every `graphql-js` schema. -/
theorem refine_narrows_possible_runtime_types (env : TypeEnv) (s : Scope)
    (type : String) (dirs : Option (List DirNode))
    (hsound : ∀ a b, env.isTypeSubTypeOf a b = true →
      ∀ x, x ∈ getPossibleTypes env a → x ∈ getPossibleTypes env b) :
    ∀ x, x ∈ (s.refine env type dirs).possibleRuntimeTypes env →
      x ∈ s.possibleRuntimeTypes env := by
  intro x hx
  rw [mem_possibleRuntimeTypes] at hx ⊢
  have fromPruned :
      (∀ l ∈ Scope.chain ⟨type, none, pruneRefinedTypes env type s.chain⟩,
        x ∈ getPossibleTypes env l.parentType) →
      ∀ l ∈ s.chain, x ∈ getPossibleTypes env l.parentType := by
    intro h l hl
    have hhead : x ∈ getPossibleTypes env type := h _ (List.mem_cons_self _ _)
    rcases mem_pruneRefinedTypes_of_mem env type hl with hkept | ⟨_, hsub⟩
    · exact h l (List.mem_cons_of_mem _ hkept)
    · exact hsound type l.parentType hsub x hhead
  have fromPushed : ∀ (ds : List DirNode),
      (∀ l ∈ Scope.chain ⟨type, some ds, s.chain⟩,
        x ∈ getPossibleTypes env l.parentType) →
      ∀ l ∈ s.chain, x ∈ getPossibleTypes env l.parentType := by
    intro ds h l hl
    exact h l (List.mem_cons_of_mem _ hl)
  rcases dirs with _ | ds
  · simp only [Scope.refine] at hx
    by_cases hr : s.isStrictlyRefinedBy env type
    · simp only [hr, Bool.not_true, Bool.false_eq_true, if_false] at hx
      exact fromPruned hx
    · simp only [Bool.not_eq_true] at hr
      simp only [Scope.refine, hr, Bool.not_false, if_true] at hx
      exact hx
  · cases ds with
    | nil =>
      simp only [Scope.refine] at hx
      by_cases hr : s.isStrictlyRefinedBy env type
      · simp only [hr, Bool.not_true, Bool.false_eq_true, if_false] at hx
        exact fromPruned hx
      · simp only [Bool.not_eq_true] at hr
        simp only [Scope.refine, hr, Bool.not_false, if_true] at hx
        exact hx
    | cons d rest =>
      simp only [Scope.refine] at hx
      exact fromPushed (d :: rest) hx

/-- A concrete type environment: an interface `I` implemented by objects `A`
and `B`, with the subtype pairs `graphql-js` would report. -/
def envI : TypeEnv :=
  ⟨["I"], [("I", ["A", "B"])],
    [("A", "I"), ("B", "I"), ("A", "A"), ("B", "B"), ("I", "I")]⟩

theorem envI_sound : ∀ a b, envI.isTypeSubTypeOf a b = true →
    ∀ x, x ∈ getPossibleTypes envI a → x ∈ getPossibleTypes envI b := by
  intro a b h x hx
  simp only [TypeEnv.isTypeSubTypeOf, envI, decide_eq_true_eq, List.mem_cons,
    List.not_mem_nil, or_false, Prod.mk.injEq] at h
  have gA : getPossibleTypes envI "A" = ["A"] := by decide
  have gB : getPossibleTypes envI "B" = ["B"] := by decide
  have gI : getPossibleTypes envI "I" = ["A", "B"] := by decide
  rcases h with ⟨rfl, rfl⟩ | ⟨rfl, rfl⟩ | ⟨rfl, rfl⟩ | ⟨rfl, rfl⟩ | ⟨rfl, rfl⟩ <;>
    simp only [gA, gB, gI, List.mem_cons, List.not_mem_nil, or_false] at hx ⊢ <;>
    tauto

/-- C7 witness: refining the root scope on interface `I` by object type `A`
exercises the pruning branch of `refine`, and `A` is a possible runtime type
both before and after. -/
theorem refine_narrows_possible_runtime_types_witness :
    "A" ∈ ((Scope.create "I").refine envI "A" none).possibleRuntimeTypes envI ∧
      "A" ∈ (Scope.create "I").possibleRuntimeTypes envI :=
  ⟨by decide,
   refine_narrows_possible_runtime_types envI (Scope.create "I") "A" none envI_sound "A"
     (by decide)⟩

/-- The trivial type environment (no abstract types, no subtype pairs). -/
def env0 : TypeEnv := ⟨[], [], []⟩

/-- The directive application `@a`. -/
def dirA : DirNode := ⟨"a", []⟩

/-- The directive application `@b`. -/
def dirB : DirNode := ⟨"b", []⟩

/-- A scope carrying the directives `[@a, @b]`, built through the public
`create`/`refine` interface. -/
def scopeAB : Scope := (Scope.create "T").refine env0 "U" (some [dirA, dirB])

/-- The same scope except that the directives are listed as `[@b, @a]`. -/
def scopeBA : Scope := (Scope.create "T").refine env0 "U" (some [dirB, dirA])

/-- C8 counterexample: `scopeAB.equals(scopeBA)` holds — `equals` compares
the printed directive lists after sorting them — yet their `hashCode`s
differ, because `hashCode` folds the directive hashes in list order.  This
refutes the claim `s1.equals(s2) ⇒ s1.hash() == s2.hash()` as stated. -/
theorem scope_equals_hash_counterexample :
    Scope.equals scopeAB scopeBA = true ∧
      Scope.hashCode scopeAB ≠ Scope.hashCode scopeBA := by
  constructor
  · decide
  · decide

theorem linksEquals_map_parentType {l1 l2 : List ScopeLink}
    (h : linksEquals l1 l2 = true) :
    l1.map ScopeLink.parentType = l2.map ScopeLink.parentType := by
  induction l1 generalizing l2 with
  | nil =>
    cases l2 with
    | nil => rfl
    | cons b bs => simp [linksEquals] at h
  | cons a as' ih =>
    cases l2 with
    | nil => simp [linksEquals] at h
    | cons b bs =>
      simp only [linksEquals, Bool.and_eq_true, beq_iff_eq] at h
      simp only [List.map_cons, h.1.1, ih h.2, List.cons.injEq, and_self]

theorem filterByChain_congr (env : TypeEnv) {l1 l2 : List ScopeLink}
    (h : l1.map ScopeLink.parentType = l2.map ScopeLink.parentType)
    (acc : List String) : filterByChain env acc l1 = filterByChain env acc l2 := by
  induction l1 generalizing l2 acc with
  | nil =>
    cases l2 with
    | nil => rfl
    | cons b bs => simp at h
  | cons a as' ih =>
    cases l2 with
    | nil => simp at h
    | cons b bs =>
      simp only [List.map_cons, List.cons.injEq] at h
      simp only [filterByChain, h.1, ih h.2]

/-- C8 (amended): if `s1.equals(s2)` and the two scopes carry the same
directive list in the same order, then their identity keys and their hashes
agree.  (Without the same-order proviso the claim fails, because `equals`
ignores directive order while `identity_key` and `hashCode` do not.) -/
theorem scope_equals_congruence_amended (env : TypeEnv) (s1 s2 : Scope)
    (heq : Scope.equals s1 s2 = true) (hdir : s1.directives = s2.directives) :
    s1.identityKey env = s2.identityKey env ∧ s1.hashCode = s2.hashCode := by
  have hchains := linksEquals_map_parentType heq
  simp only [Scope.chain, List.map_cons, List.cons.injEq] at hchains
  obtain ⟨hparent, henc⟩ := hchains
  have hprt : s1.possibleRuntimeTypes env = s2.possibleRuntimeTypes env := by
    simp only [Scope.possibleRuntimeTypes, hparent]
    exact filterByChain_congr env henc _
  constructor
  · simp only [Scope.identityKey, hparent, hprt, hdir]
  · simp only [Scope.hashCode, hparent, hdir]

/-- C8 amended witness: a concrete scope is `equals` to itself with
literally identical directives, so the amended congruence applies. -/
theorem scope_equals_congruence_amended_witness :
    Scope.equals scopeAB scopeAB = true ∧
      (Scope.identityKey env0 scopeAB = Scope.identityKey env0 scopeAB ∧
        Scope.hashCode scopeAB = Scope.hashCode scopeAB) :=
  ⟨by decide, scope_equals_congruence_amended env0 scopeAB scopeAB (by decide) rfl⟩

theorem charListLt_trans {a b c : List Char} (h1 : charListLt a b = true)
    (h2 : charListLt b c = true) : charListLt a c = true := by
  induction a generalizing b c with
  | nil =>
    cases c with
    | nil => cases b <;> simp [charListLt] at h2
    | cons z zs => rfl
  | cons x xs ih =>
    cases b with
    | nil => simp [charListLt] at h1
    | cons y ys =>
      cases c with
      | nil => simp [charListLt] at h2
      | cons z zs =>
        simp only [charListLt, Bool.or_eq_true, Bool.and_eq_true,
          decide_eq_true_eq] at h1 h2 ⊢
        rcases h1 with hxy | ⟨rfl, hxs⟩
        · rcases h2 with hyz | ⟨rfl, hys⟩
          · exact Or.inl (lt_trans hxy hyz)
          · exact Or.inl hxy
        · rcases h2 with hyz | ⟨rfl, hys⟩
          · exact Or.inl hyz
          · exact Or.inr ⟨rfl, ih hxs hys⟩

theorem strLeB_antisymm {a b : String} (h1 : strLeB a b = true)
    (h2 : strLeB b a = true) : a = b := by
  simp only [strLeB, Bool.not_eq_true'] at h1 h2
  exact String.ext (eq_of_not_lt_of_not_lt h2 h1)

theorem strLeB_trans {a b c : String} (h1 : strLeB a b = true)
    (h2 : strLeB b c = true) : strLeB a c = true := by
  simp only [strLeB, Bool.not_eq_true'] at h1 h2 ⊢
  by_contra hca
  have hca' : charListLt c.data a.data = true := by
    simpa using hca
  by_cases hbc : charListLt b.data c.data = true
  · have hba : charListLt b.data a.data = true := charListLt_trans hbc hca'
    simp [h1] at hba
  · have heq : b.data = c.data :=
      eq_of_not_lt_of_not_lt (Bool.eq_false_iff.mpr hbc) h2
    rw [← heq] at hca'
    simp [h1] at hca'

/-- The order relation used for the sorted printed-directive comparison. -/
def strLeR (a b : String) : Prop := strLeB a b = true

theorem insertSorted_perm (a : String) (l : List String) :
    (insertSorted a l).Perm (a :: l) := by
  induction l with
  | nil => simp [insertSorted]
  | cons b bs ih =>
    by_cases hab : strLeB a b = true
    · simp [insertSorted, if_pos hab]
    · simp only [insertSorted, if_neg hab]
      exact (ih.cons b).trans (List.Perm.swap _ _ _)

theorem pairwise_insertSorted {a : String} {l : List String}
    (h : List.Pairwise strLeR l) : List.Pairwise strLeR (insertSorted a l) := by
  induction l with
  | nil => simp [insertSorted, List.Pairwise, strLeR]
  | cons b bs ih =>
    rw [List.pairwise_cons] at h
    obtain ⟨hb, hbs⟩ := h
    by_cases hab : strLeB a b = true
    · simp only [insertSorted, if_pos hab]
      rw [List.pairwise_cons]
      refine ⟨?_, List.pairwise_cons.mpr ⟨hb, hbs⟩⟩
      intro x hx
      rcases List.mem_cons.mp hx with rfl | hx'
      · exact hab
      · exact strLeB_trans hab (hb x hx')
    · simp only [insertSorted, if_neg hab]
      rw [List.pairwise_cons]
      refine ⟨?_, ih hbs⟩
      intro x hx
      rcases List.mem_cons.mp ((insertSorted_perm a bs).mem_iff.mp hx) with rfl | hx'
      · rcases strLeB_total b x with hbx | hxb
        · exact hbx
        · exact absurd hxb hab
      · exact hb x hx'

theorem sortStrings_perm (l : List String) : (sortStrings l).Perm l := by
  induction l with
  | nil => simp [sortStrings]
  | cons a as' ih =>
    exact (insertSorted_perm a (sortStrings as')).trans (ih.cons a)

theorem sortStrings_pairwise (l : List String) :
    List.Pairwise strLeR (sortStrings l) := by
  induction l with
  | nil => simp [sortStrings]
  | cons a as' ih => exact pairwise_insertSorted ih

theorem sortStrings_eq_of_perm {l1 l2 : List String} (h : l1.Perm l2) :
    sortStrings l1 = sortStrings l2 := by
  haveI : IsAntisymm String strLeR := ⟨fun _ _ => strLeB_antisymm⟩
  exact List.eq_of_perm_of_sorted
    (((sortStrings_perm l1).trans h).trans (sortStrings_perm l2).symm)
    (sortStrings_pairwise l1) (sortStrings_pairwise l2)

theorem cmpStrings_eq_true_iff {l1 l2 : List String} (h : l1.length = l2.length) :
    cmpStrings l1 l2 = true ↔ l1 = l2 := by
  induction l1 generalizing l2 with
  | nil =>
    cases l2 with
    | nil => simp [cmpStrings]
    | cons b bs => simp at h
  | cons a as' ih =>
    cases l2 with
    | nil => simp at h
    | cons b bs =>
      simp only [List.length_cons, Nat.add_right_cancel_iff] at h
      simp [cmpStrings, ih h, And.comm]

/-- C9 counterexample input: the directive lists `[@a, @b]` and `[@b, @a]`. -/
def dirListAB : List DirNode := [dirA, dirB]

/-- C9 counterexample input, the other order. -/
def dirListBA : List DirNode := [dirB, dirA]

/-- Element-wise directive-list equality, as the claim words it: same length
and `i`-th element equal to `i`-th element, where element equality compares
the directive names and the argument maps. -/
def dirEqSpec (d1 d2 : DirNode) : Prop :=
  d1.name = d2.name ∧ ∀ k, d1.args.lookup k = d2.args.lookup k

/-- C9 counterexample: the directive lists `[@a, @b]` and `[@b, @a]` compare
equal under `Scope.directivesEquals` but are not element-wise equal, so the
"iff element-wise equal" claim fails. -/
theorem directives_equals_counterexample :
    directivesEquals (some dirListAB) (some dirListBA) = true ∧
      ¬ List.Forall₂ dirEqSpec dirListAB dirListBA := by
  constructor
  · decide
  · intro h
    rcases h with _ | ⟨h1, _⟩
    have : dirA.name = dirB.name := h1.1
    simp [dirA, dirB] at this

/-- C9 (amended): two optional directive lists compare equal under
`Scope.directivesEquals` iff both are absent, or both are present and equal
as multisets of printed directives (each directive printed with its
arguments in their written order).  Element order in the lists does not
matter; argument order inside one directive does. -/
theorem directives_equals_amended (od1 od2 : Option (List DirNode)) :
    directivesEquals od1 od2 = true ↔
      (match od1, od2 with
       | none, none => True
       | some d1, some d2 => (d1.map directiveToString).Perm (d2.map directiveToString)
       | _, _ => False) := by
  rcases od1 with _ | d1 <;> rcases od2 with _ | d2
  · simp [directivesEquals]
  · simp [directivesEquals]
  · simp [directivesEquals]
  · simp only [directivesEquals]
    constructor
    · intro h
      by_cases hlen : d1.length = d2.length
      · simp only [hlen, ne_eq, not_true_eq_false, if_false] at h
        have hslen : (sortStrings (d1.map directiveToString)).length =
            (sortStrings (d2.map directiveToString)).length := by
          rw [(sortStrings_perm _).length_eq, (sortStrings_perm _).length_eq]
          simp [hlen]
        have hs := (cmpStrings_eq_true_iff hslen).mp h
        have h2 := sortStrings_perm (d2.map directiveToString)
        rw [← hs] at h2
        exact (sortStrings_perm (d1.map directiveToString)).symm.trans h2
      · simp [hlen] at h
    · intro h
      have hlen : d1.length = d2.length := by
        have := h.length_eq
        simpa using this
      simp only [hlen, ne_eq, not_true_eq_false, if_false]
      have hslen : (sortStrings (d1.map directiveToString)).length =
          (sortStrings (d2.map directiveToString)).length := by
        rw [(sortStrings_perm _).length_eq, (sortStrings_perm _).length_eq]
        simp [hlen]
      exact (cmpStrings_eq_true_iff hslen).mpr (sortStrings_eq_of_perm h)

end Scopes

namespace Planner

open Scopes

/-- The kind of a named GraphQL type. -/
inductive GKind where
  | scalarKind
  | objectKind
  | interfaceKind
  | unionKind
  | enumKind
  | inputObjectKind
deriving DecidableEq

/-- A GraphQL type reference: a named type possibly wrapped in list and
non-null wrappers. -/
inductive GType where
  | named (name : String) (kind : GKind)
  | listOf (t : GType)
  | nonNull (t : GType)

/-- `getNamedType` of `graphql-js`: unwrap all wrappers. -/
def getNamedType : GType → String × GKind
  | .named n k => (n, k)
  | .listOf t => getNamedType t
  | .nonNull t => getNamedType t

/-- `isCompositeType` of `graphql-js`: object, interface or union. -/
def isCompositeType (k : GKind) : Bool :=
  match k with
  | .objectKind => true
  | .interfaceKind => true
  | .unionKind => true
  | _ => false

/-- An executable AST selection, as consumed by `collectFields`.  A field
node keeps its name and sub-selections (the latter are carried but not
walked by `collectFields`, exactly as in the source). -/
inductive Selection where
  | field (name : String) (selectionSet : List Selection)
  | inlineFragment (typeCondition : Option String) (directives : List DirNode)
      (selectionSet : List Selection)
  | fragmentSpread (name : String) (directives : List DirNode)

/-- A named fragment definition (`FragmentDefinitionNode`): a mandatory type
condition and a selection set. -/
structure FragmentDef where
  typeCondition : String
  selectionSet : List Selection

/-- Per-field federation metadata (`getFederationMetadataForField`). -/
structure FedFieldMetadata where
  graphName : Option String
  requires : Option (List Selection)
  provides : Option (List Selection)

/-- Per-type federation metadata (`getFederationMetadataForType`): the
owning graph and the `@key` selections per service. -/
structure FedTypeMetadata where
  graphName : Option String
  keys : List (String × List (List Selection))

/-- A field definition of the composed schema as the planner reads it. -/
structure GFieldDef where
  name : String
  type : GType
  federation : Option FedFieldMetadata

/-- A named type of the composed schema as the planner reads it. -/
structure PlannerType where
  name : String
  fields : List GFieldDef
  federation : Option FedTypeMetadata

/-- The planner error kind: a thrown `GraphQLError`, or exhaustion of the
call stack modelled by running out of fuel. -/
inductive PlanErr where
  | graphQLError (message : String)
  | stackExhausted

/-- A `QueryPlanningContext` restricted to what field collection reads: the
schema's types, the type-system environment and the fragment map. -/
structure QPContext where
  env : TypeEnv
  types : List PlannerType
  fragments : List (String × FragmentDef)

/-- One entry of a `FieldSet`: scope, field node and field definition. -/
structure FieldSetEntry where
  scope : Scope
  fieldNode : Selection
  fieldDef : GFieldDef

/-- Look a named type up in the composed schema. -/
def lookupType (ctx : QPContext) (name : String) : Option PlannerType :=
  ctx.types.find? (·.name == name)

/-- `TypeNameMetaFieldDef`: the `__typename` meta field. -/
def typenameFieldDef : GFieldDef :=
  ⟨"__typename", .named "String" .scalarKind, none⟩

/-- The constant `typenameField` node. -/
def typenameField : Selection := .field "__typename" []

/-- Modelled from the spec: the `getFieldDef` helper of
`utilities/graphql` (not under `src/`), which looks a field up on the parent
type "folding in meta-fields"; composed with
`QueryPlanningContext.getFieldDef`, which throws `Cannot query field` when
the lookup fails.  Only the `__typename` meta field is modelled. -/
def getFieldDef (ctx : QPContext) (parentType : String) (fieldName : String) :
    Except PlanErr GFieldDef :=
  if fieldName == "__typename" then .ok typenameFieldDef
  else
    match lookupType ctx parentType with
    | some t =>
      match t.fields.find? (·.name == fieldName) with
      | some fd => .ok fd
      | none =>
        .error (.graphQLError
          ("Cannot query field \"" ++ fieldName ++ "\" on type \"" ++ parentType ++ "\""))
    | none =>
      .error (.graphQLError
        ("Cannot query field \"" ++ fieldName ++ "\" on type \"" ++ parentType ++ "\""))

/-- `QueryPlanningContext.getFragmentCondition`: the fragment's type
condition, defaulting to the scope's parent type. -/
def getFragmentCondition (parentType : String) (typeCondition : Option String) : String :=
  typeCondition.getD parentType

/-- `QueryPlanningContext.scopeForFragment`: refine the scope by the
fragment condition and its directives; `none` when the refined scope has no
possible runtime type. -/
def scopeForFragment (ctx : QPContext) (currentScope : Scope)
    (typeCondition : Option String) (fragmentDirectives : List DirNode) : Option Scope :=
  let condition := getFragmentCondition currentScope.parentType typeCondition
  let newScope := currentScope.refine ctx.env condition (some fragmentDirectives)
  if (newScope.possibleRuntimeTypes ctx.env).length == 0 then none else some newScope

/-- `QueryPlanningContext.collectFields`: walk a selection set against a
scope, appending `(scope, fieldNode, fieldDef)` triples.  The fuel argument
models the JavaScript call stack: each recursion into a fragment consumes
one unit. -/
def collectFields (ctx : QPContext) :
    Nat → Scope → List Selection → List FieldSetEntry →
      Except PlanErr (List FieldSetEntry)
  | _, _, [], fields => .ok fields
  | fuel, scope, sel :: rest, fields =>
    match sel with
    | .field name _ =>
      match getFieldDef ctx scope.parentType name with
      | .ok fieldDef => collectFields ctx fuel scope rest (fields ++ [⟨scope, sel, fieldDef⟩])
      | .error e => .error e
    | .inlineFragment tc dirs sub =>
      match fuel with
      | 0 => .error .stackExhausted
      | fuel' + 1 =>
        match scopeForFragment ctx scope tc dirs with
        | some newScope =>
          match collectFields ctx fuel' newScope sub fields with
          | .ok fields' => collectFields ctx (fuel' + 1) scope rest fields'
          | .error e => .error e
        | none => collectFields ctx (fuel' + 1) scope rest fields
    | .fragmentSpread fname dirs =>
      match ctx.fragments.lookup fname with
      | none => collectFields ctx fuel scope rest fields
      | some frag =>
        match fuel with
        | 0 => .error .stackExhausted
        | fuel' + 1 =>
          match scopeForFragment ctx scope (some frag.typeCondition) dirs with
          | some newScope =>
            match collectFields ctx fuel' newScope frag.selectionSet fields with
            | .ok fields' => collectFields ctx (fuel' + 1) scope rest fields'
            | .error e => .error e
          | none => collectFields ctx (fuel' + 1) scope rest fields
  termination_by fuel _ sels _ => (fuel, sels.length)

/-- The `@key` selections registered for `typeName` and `serviceName`:
`getFederationMetadataForType(possibleType)?.keys?.get(serviceName)`. -/
def keysFor (ctx : QPContext) (typeName serviceName : String) :
    Option (List (List Selection)) :=
  match lookupType ctx typeName with
  | some t =>
    match t.federation with
    | some m => m.keys.lookup serviceName
    | none => none
  | none => none

/-- `QueryPlanningContext.getKeyFields`: `__typename` first, then for each
possible runtime type with keys for the service, the collected fields of all
keys (`fetchAll`) or of the first key. -/
def getKeyFields (ctx : QPContext) (fuel : Nat) (scope : Scope)
    (serviceName : String) (fetchAll : Bool) :
    Except PlanErr (List FieldSetEntry) :=
  (scope.possibleRuntimeTypes ctx.env).foldlM
    (fun keyFields possibleType =>
      match keysFor ctx possibleType serviceName with
      | none => .ok keyFields
      | some [] => .ok keyFields
      | some (k :: krest) =>
        if fetchAll then
          (k :: krest).foldlM
            (fun acc key => do
              let fs ← collectFields ctx fuel (scope.refine ctx.env possibleType none) key []
              .ok (acc ++ fs))
            keyFields
        else do
          let fs ← collectFields ctx fuel (scope.refine ctx.env possibleType none) k []
          .ok (keyFields ++ fs))
    [⟨scope, typenameField, typenameFieldDef⟩]

/-- `QueryPlanningContext.getProvidedFields`: empty for a non-composite
return type; otherwise all key fields of the return type plus the collected
`@provides` selection, both rooted at a fresh scope on the return type. -/
def getProvidedFields (ctx : QPContext) (fuel : Nat) (fieldDef : GFieldDef)
    (serviceName : String) : Except PlanErr (List FieldSetEntry) :=
  let returnType := getNamedType fieldDef.type
  if !(isCompositeType returnType.2) then .ok []
  else do
    let keyFs ← getKeyFields ctx fuel (Scope.create returnType.1) serviceName true
    match fieldDef.federation.bind (·.provides) with
    | some sels => do
      let fs ← collectFields ctx fuel (Scope.create returnType.1) sels []
      .ok (keyFs ++ fs)
    | none => .ok keyFs

/-- C10: for every field definition whose unwrapped return type is not a
composite type, `getProvidedFields` returns the empty field set, for every
context, fuel and service name, regardless of the `@provides` or key
metadata attached to the field. -/
theorem getProvidedFields_empty_of_non_composite (ctx : QPContext) (fuel : Nat)
    (fieldDef : GFieldDef) (serviceName : String)
    (h : isCompositeType (getNamedType fieldDef.type).2 = false) :
    getProvidedFields ctx fuel fieldDef serviceName = .ok [] := by
  simp [getProvidedFields, h]

/-- A field returning `Int` that nonetheless carries `@provides` metadata
and an owning graph. -/
def intFieldWithProvides : GFieldDef :=
  ⟨"a", .named "Int" .scalarKind,
    some ⟨some "S1", none, some [Selection.field "x" []]⟩⟩

/-- An example planning context with one object type that has keys. -/
def ctxExample : QPContext :=
  ⟨env0,
   [⟨"T", [⟨"k", .named "ID" .scalarKind, none⟩],
     some ⟨some "S1", [("S1", [[Selection.field "k" []]])]⟩⟩],
   []⟩

/-- C10 witness: at a concrete scalar-returning field carrying `@provides`
metadata, `getProvidedFields` is the empty field set. -/
theorem getProvidedFields_empty_of_non_composite_witness :
    isCompositeType (getNamedType intFieldWithProvides.type).2 = false ∧
      getProvidedFields ctxExample 5 intFieldWithProvides "S1" = .ok [] :=
  ⟨by decide,
   getProvidedFields_empty_of_non_composite ctxExample 5 intFieldWithProvides "S1" (by decide)⟩

end Planner

namespace Precompute

/-- A field selection inside a federation `FieldSet` argument, as used by
`@key(fields:)` and `@provides(fields:)`. -/
inductive FSel where
  | field (name : String) (sub : List FSel)

/-- A field definition of a federation subgraph schema, carrying exactly the
attributes `computeAllFieldsWithDirective` consults: the base named return
type, whether `@shareable` is applied directly, whether the federation
metadata marks the field `@external`, the `@provides` target selections, and
`ofExtension()` (the identifier of the extension the field belongs to, if
any). -/
structure PField where
  name : String
  returnTypeBase : String
  hasShareable : Bool
  external : Bool
  provides : List (List FSel)
  ofExtension : Option Nat

/-- An object type of a federation subgraph schema: `@key` selections,
the `ofExtension()` values of the type-level `@shareable` applications, the
interfaces it implements and its fields. -/
structure PObjectType where
  name : String
  implements : List String
  keys : List (List FSel)
  shareableAppls : List (Option Nat)
  fields : List PField

/-- An interface type of a federation subgraph schema. -/
structure PInterfaceType where
  name : String
  keys : List (List FSel)
  fields : List PField

/-- A federation subgraph schema as the precompute pass reads it. -/
structure PSchema where
  objects : List PObjectType
  interfaces : List PInterfaceType

/-- Find a field on an object or interface type (objects searched first). -/
def findFieldIn (s : PSchema) (typeName fieldName : String) : Option PField :=
  match s.objects.find? (·.name == typeName) with
  | some t => t.fields.find? (·.name == fieldName)
  | none =>
    match s.interfaces.find? (·.name == typeName) with
    | some t => t.fields.find? (·.name == fieldName)
    | none => none

/-- Whether `typeName` names an interface type. -/
def isInterfaceName (s : PSchema) (typeName : String) : Bool :=
  s.interfaces.any (·.name == typeName)

/-- The object types implementing the given interface. -/
def implementersOf (s : PSchema) (ifaceName : String) : List PObjectType :=
  s.objects.filter (·.implements.contains ifaceName)

/-- Modelled from the spec: `collectTargetFields` (imported by
`precompute.ts` but not under `src/`) — the field coordinates reachable from
a `FieldSet` selection rooted at `parentType`, skipping unresolvable fields
(`validate: false`) and, for a field found on an interface, also including
the implementations’ same-named fields
(`includeInterfaceFieldsImplementations: true`). -/
def collectTargetFields (s : PSchema) (parentType : String) :
    List FSel → List (String × String)
  | [] => []
  | sel :: rest =>
    (match sel with
     | .field n sub =>
       match findFieldIn s parentType n with
       | none => []
       | some f =>
         ((parentType, n) ::
           (if isInterfaceName s parentType then
             (implementersOf s parentType).filterMap fun o =>
               if o.fields.any (·.name == n) then some (o.name, n) else none
            else [])) ++ collectTargetFields s f.returnTypeBase sub)
      ++ collectTargetFields s parentType rest

/-- The `addKeyFields` closure applied to an object type: the target fields
of every `@key` application. -/
def keyCoordsOfObject (s : PSchema) (t : PObjectType) : List (String × String) :=
  t.keys.flatMap fun key => collectTargetFields s t.name key

/-- The `addKeyFields` closure applied to an interface type. -/
def keyCoordsOfInterface (s : PSchema) (t : PInterfaceType) : List (String × String) :=
  t.keys.flatMap fun key => collectTargetFields s t.name key

/-- `metadata.isFieldExternal` at a coordinate. -/
def isExternalAt (s : PSchema) (c : String × String) : Bool :=
  match findFieldIn s c.1 c.2 with
  | some f => f.external
  | none => false

/-- The `fieldIsShareable` test of the per-field loop body, instantiated at
the `@shareable` directive: the directive is applied directly to the field,
or it is applied to the type and one of those applications is of the same
extension as the field. -/
def fieldIsShareable (directivePresent : Bool) (t : PObjectType) (f : PField) : Bool :=
  let directivesOnType := if directivePresent then t.shareableAppls else []
  (directivePresent && f.hasShareable) ||
    (!directivesOnType.isEmpty && directivesOnType.any fun d => f.ofExtension == d)

/-- The coordinate added by the `fieldIsShareable` branch of the loop body
(empty if the test fails or other fields on the type are not included). -/
def shareableFieldPart (directivePresent includeOtherFieldsOnType : Bool)
    (t : PObjectType) (f : PField) : List (String × String) :=
  if fieldIsShareable directivePresent t f && includeOtherFieldsOnType then
    [(t.name, f.name)]
  else []

/-- The coordinates added by the `@provides` branch of the loop body: the
target fields of each `@provides` selection, keeping only `@external` ones. -/
def providesPart (s : PSchema) (f : PField) : List (String × String) :=
  f.provides.flatMap fun p =>
    (collectTargetFields s f.returnTypeBase p).filter fun c => isExternalAt s c

/-- `computeAllFieldsWithDirective`, instantiated at the `@shareable`
directive definition for its `directive` parameter (the instantiation the
shareable predicate uses; `directivePresent = false` models passing
`undefined` on a non-fed2 schema).  The accumulated `Set<string>` of
coordinates is modelled as the list of added coordinates in loop order;
coordinates are pairs (the string `parent.field` is injective on dot-free
GraphQL names). -/
def computeAllFieldsWithShareable (s : PSchema) (directivePresent : Bool)
    (includeOtherFieldsOnType : Bool) : List (String × String) :=
  (s.objects.flatMap fun t =>
    keyCoordsOfObject s t ++
      t.fields.flatMap fun f =>
        shareableFieldPart directivePresent includeOtherFieldsOnType t f ++ providesPart s f)
    ++ s.interfaces.flatMap fun t => keyCoordsOfInterface s t

/-- `computeShareables`: the precomputed shareable predicate over field
coordinates, for a schema that is (`isFed2 = true`) or is not a fed2 schema. -/
def computeShareables (s : PSchema) (isFed2 : Bool) (c : String × String) : Bool :=
  (computeAllFieldsWithShareable s isFed2 true).contains c

/-- The `@key` field coordinates of the schema (object keys plus interface
keys, which propagate to implementations through `collectTargetFields`). -/
def keyFieldCoordinates (s : PSchema) : List (String × String) :=
  (s.objects.flatMap fun t => keyCoordsOfObject s t) ++
    s.interfaces.flatMap fun t => keyCoordsOfInterface s t

/-- The shareable predicate as the specification words it, for a field `f`
of object type `T`: (a) `@shareable` directly on the field, or (b)
`@shareable` on the parent type with the field in the same extension as that
application, or (c) a `@key` field (interface keys included), or (d)
reachable from a `@provides` selection of some field (resolved against that
field’s return type) while being marked `@external`. -/
def shareableSpec (s : PSchema) (T : PObjectType) (f : PField) : Prop :=
  f.hasShareable = true
    ∨ (∃ d ∈ T.shareableAppls, f.ofExtension = d)
    ∨ (T.name, f.name) ∈ keyFieldCoordinates s
    ∨ ((∃ T' ∈ s.objects, ∃ g ∈ T'.fields, ∃ p ∈ g.provides,
          (T.name, f.name) ∈ collectTargetFields s g.returnTypeBase p) ∧
        f.external = true)

theorem find?_name_eq {α : Type} (name : α → String) {l : List α}
    (h : (l.map name).Nodup) {x : α} (hx : x ∈ l) :
    l.find? (fun y => name y == name x) = some x := by
  induction l with
  | nil => cases hx
  | cons a rest ih =>
    rw [List.map_cons, List.nodup_cons] at h
    rcases List.mem_cons.mp hx with rfl | hmem
    · simp [List.find?]
    · have hne : (name a == name x) = false := by
        rw [beq_eq_false_iff_ne]
        intro he
        exact h.1 (he ▸ List.mem_map_of_mem name hmem)
      rw [List.find?]
      rw [hne]
      exact ih h.2 hmem

theorem findFieldIn_eq_some (s : PSchema) {T : PObjectType} {f : PField}
    (hT : T ∈ s.objects) (hf : f ∈ T.fields)
    (hnames : (s.objects.map PObjectType.name).Nodup)
    (hfieldnames : (T.fields.map PField.name).Nodup) :
    findFieldIn s T.name f.name = some f := by
  unfold findFieldIn
  rw [find?_name_eq PObjectType.name hnames hT]
  exact find?_name_eq PField.name hfieldnames hf

theorem mem_shareableFieldPart {t : PObjectType} {f : PField} {c : String × String} :
    c ∈ shareableFieldPart true true t f ↔
      ((f.hasShareable = true ∨ ∃ d ∈ t.shareableAppls, f.ofExtension = d) ∧
        c = (t.name, f.name)) := by
  have hguard : ∀ (l : List (Option Nat)) (p : Option Nat → Bool),
      (!l.isEmpty && l.any p) = l.any p := by
    intro l p
    cases l <;> simp
  simp only [shareableFieldPart, fieldIsShareable, if_true, Bool.true_and, Bool.and_true]
  by_cases hc : (f.hasShareable || ((!t.shareableAppls.isEmpty &&
      t.shareableAppls.any fun d => f.ofExtension == d))) = true
  · rw [if_pos hc]
    rw [Bool.or_eq_true, hguard, List.any_eq_true] at hc
    simp only [List.mem_singleton]
    constructor
    · intro hmem
      refine ⟨?_, hmem⟩
      rcases hc with h | ⟨d, hd, hdeq⟩
      · exact Or.inl h
      · exact Or.inr ⟨d, hd, by simpa using hdeq⟩
    · intro h
      exact h.2
  · rw [if_neg hc]
    rw [Bool.or_eq_true, hguard, List.any_eq_true] at hc
    simp only [List.not_mem_nil, false_iff, not_and]
    intro hcond
    exfalso
    apply hc
    rcases hcond with h | ⟨d, hd, hdeq⟩
    · exact Or.inl h
    · exact Or.inr ⟨d, hd, by simpa using hdeq⟩

theorem mem_providesPart {s : PSchema} {f : PField} {c : String × String} :
    c ∈ providesPart s f ↔
      ∃ p ∈ f.provides,
        c ∈ collectTargetFields s f.returnTypeBase p ∧ isExternalAt s c = true := by
  simp [providesPart, List.mem_flatMap, List.mem_filter]

theorem contains_iff_mem {c : String × String} {l : List (String × String)} :
    l.contains c = true ↔ c ∈ l := by
  simp [List.contains]

/-- C6: in a fed2 federation subgraph schema (type and field names unique),
the precomputed shareable predicate holds at the coordinate of a field `f`
of object type `T` iff (a) `@shareable` is applied directly to `f`, or (b)
`@shareable` is applied to `T` and `f` belongs to the same extension as that
application, or (c) `f` is a `@key` field (keys propagated from interfaces
to implementations included), or (d) `f` is reachable from a `@provides`
selection on some field (resolved against that field's return type) and `f`
is marked `@external`. -/
theorem computeShareables_iff_shareableSpec (s : PSchema) (T : PObjectType)
    (f : PField) (hT : T ∈ s.objects) (hf : f ∈ T.fields)
    (hnames : (s.objects.map PObjectType.name).Nodup)
    (hfieldnames : ∀ t ∈ s.objects, (t.fields.map PField.name).Nodup) :
    computeShareables s true (T.name, f.name) = true ↔ shareableSpec s T f := by
  rw [computeShareables, contains_iff_mem]
  have hext : isExternalAt s (T.name, f.name) = f.external := by
    simp [isExternalAt, findFieldIn_eq_some s hT hf hnames (hfieldnames T hT)]
  have hkeyiff : (T.name, f.name) ∈ keyFieldCoordinates s ↔
      ((∃ t ∈ s.objects, (T.name, f.name) ∈ keyCoordsOfObject s t) ∨
        (∃ t ∈ s.interfaces, (T.name, f.name) ∈ keyCoordsOfInterface s t)) := by
    simp [keyFieldCoordinates, List.mem_append, List.mem_flatMap]
  rw [shareableSpec]
  simp only [computeAllFieldsWithShareable, List.mem_append, List.mem_flatMap]
  constructor
  · rintro (⟨t, ht, hkey | ⟨g, hg, hsh | hpr⟩⟩ | ⟨t, ht, hkey⟩)
    · exact Or.inr (Or.inr (Or.inl (hkeyiff.mpr (Or.inl ⟨t, ht, hkey⟩))))
    · obtain ⟨hcond, hceq⟩ := mem_shareableFieldPart.mp hsh
      have hn1 : T.name = t.name := congrArg Prod.fst hceq
      have hn2 : f.name = g.name := congrArg Prod.snd hceq
      have ht' : t = T := List.inj_on_of_nodup_map hnames ht hT hn1.symm
      subst ht'
      have hg' : g = f := List.inj_on_of_nodup_map (hfieldnames t ht) hg hf hn2.symm
      subst hg'
      rcases hcond with h | h
      · exact Or.inl h
      · exact Or.inr (Or.inl h)
    · obtain ⟨p, hp, hcol, hexm⟩ := mem_providesPart.mp hpr
      rw [hext] at hexm
      exact Or.inr (Or.inr (Or.inr ⟨⟨t, ht, g, hg, p, hp, hcol⟩, hexm⟩))
    · exact Or.inr (Or.inr (Or.inl (hkeyiff.mpr (Or.inr ⟨t, ht, hkey⟩))))
  · rintro (ha | hb | hc | hd)
    · exact Or.inl ⟨T, hT, Or.inr ⟨f, hf, Or.inl (mem_shareableFieldPart.mpr ⟨Or.inl ha, rfl⟩)⟩⟩
    · exact Or.inl ⟨T, hT, Or.inr ⟨f, hf, Or.inl (mem_shareableFieldPart.mpr ⟨Or.inr hb, rfl⟩)⟩⟩
    · rcases hkeyiff.mp hc with ⟨t, ht, hkey⟩ | ⟨t, ht, hkey⟩
      · exact Or.inl ⟨t, ht, Or.inl hkey⟩
      · exact Or.inr ⟨t, ht, hkey⟩
    · obtain ⟨⟨t, ht, g, hg, p, hp, hcol⟩, hexm⟩ := hd
      refine Or.inl ⟨t, ht, Or.inr ⟨g, hg, Or.inr (mem_providesPart.mpr ⟨p, hp, hcol, ?_⟩)⟩⟩
      rw [hext]
      exact hexm

/-- A key field `k : ID` with no directives of its own. -/
def exKeyField : PField := ⟨"k", "ID", false, false, [], none⟩

/-- A field `a : Int` marked `@shareable` directly. -/
def exAField : PField := ⟨"a", "Int", true, false, [], none⟩

/-- An object type `T` with `@key(fields: "k")`. -/
def exTType : PObjectType := ⟨"T", [], [[FSel.field "k" []]], [], [exKeyField, exAField]⟩

/-- A one-type fed2 subgraph schema. -/
def exSchema : PSchema := ⟨[exTType], []⟩

/-- C6 witness: in the example schema the precomputed predicate holds at
`T.k`, and by the equivalence the specification predicate holds there too
(`k` is a key field). -/
theorem computeShareables_eval :
    computeShareables exSchema true ("T", "k") = true := by
  simp [computeShareables, computeAllFieldsWithShareable, keyCoordsOfObject,
    keyCoordsOfInterface, collectTargetFields, findFieldIn, exSchema, exTType,
    exKeyField, exAField, shareableFieldPart, fieldIsShareable, providesPart,
    isExternalAt, isInterfaceName, implementersOf, List.contains]

theorem computeShareables_iff_shareableSpec_witness :
    computeShareables exSchema true ("T", "k") = true ∧
      shareableSpec exSchema exTType exKeyField :=
  ⟨computeShareables_eval,
   (computeShareables_iff_shareableSpec exSchema exTType exKeyField
      (List.mem_singleton.mpr rfl) (List.mem_cons_self _ _)
      (by decide)
      (by
        intro t ht
        rw [List.mem_singleton.mp ht]
        decide)).mp computeShareables_eval⟩

end Precompute

namespace Compose

/-- Modelled from the spec: a field of a subgraph type as the
override-composition rules read it — the composition engine itself is not
part of the sources, only its tests are, so this whole namespace follows the
specification's §4.C4 wording and the expectations pinned by the tests. -/
structure SGField where
  name : String
  overrideFrom : Option String
  external : Bool
  shareable : Bool
deriving DecidableEq

/-- Modelled from the spec: a type of a subgraph, with the field names of
its `@key(fields:)` selection. -/
structure SGType where
  name : String
  keyFields : List String
  fields : List SGField
deriving DecidableEq

/-- Modelled from the spec: a subgraph record `{name, url, typeDefs}`. -/
structure Subgraph where
  name : String
  url : String
  types : List SGType
deriving DecidableEq

/-- Find a type in a subgraph by name. -/
def Subgraph.findType (g : Subgraph) (tname : String) : Option SGType :=
  g.types.find? (·.name == tname)

/-- Find a field in a subgraph by coordinate. -/
def Subgraph.findField (g : Subgraph) (tname fname : String) : Option SGField :=
  (g.findType tname).bind fun t => t.fields.find? (·.name == fname)

/-- Find a subgraph by name. -/
def findSubgraph (subs : List Subgraph) (name : String) : Option Subgraph :=
  subs.find? (·.name == name)

/-- The composition error codes of the spec's taxonomy. -/
inductive ErrCode where
  | OVERRIDE_FROM_SELF_ERROR
  | OVERRIDE_SOURCE_HAS_OVERRIDE
  | OVERRIDE_COLLISION_WITH_ANOTHER_DIRECTIVE
  | OVERRIDE_ON_BOTH_FIELD_AND_TYPE
  | INVALID_FIELD_SHARING
deriving DecidableEq

/-- A composition error: a stable code and a human-readable message that
embeds the field coordinate and subgraph names. -/
structure CompError where
  code : ErrCode
  message : String
deriving DecidableEq

/-- Modelled from the spec: the error rows of the override table for one
field bearing `@override(from:)` in subgraph `g`, in the table's order:
override from self, two-way override (emitted for this side), `@external` on
the overridden counterpart, `@external` on the overriding declaration. -/
def overrideErrorsForField (subs : List Subgraph) (g : Subgraph)
    (tname fname : String) (f : SGField) : List CompError :=
  match f.overrideFrom with
  | none => []
  | some fromName =>
    let coord := tname ++ "." ++ fname
    (if fromName == g.name then
      [⟨.OVERRIDE_FROM_SELF_ERROR,
        "Source and destination subgraphs \"" ++ g.name ++
          "\" are the same for overridden field \"" ++ coord ++ "\""⟩]
     else []) ++
    (match findSubgraph subs fromName with
     | none => []
     | some src =>
       match src.findField tname fname with
       | none => []
       | some srcF =>
         (if srcF.overrideFrom.isSome then
           [⟨.OVERRIDE_SOURCE_HAS_OVERRIDE,
             "Field \"" ++ coord ++ "\" on subgraph \"" ++ g.name ++
               "\" is also marked with directive @override in subgraph \"" ++ fromName ++
               "\". Only one @override directive is allowed per field."⟩]
          else []) ++
         (if srcF.external then
           [⟨.OVERRIDE_COLLISION_WITH_ANOTHER_DIRECTIVE,
             "@override cannot be used on field \"" ++ coord ++ "\" on subgraph \"" ++
               g.name ++ "\" since \"" ++ coord ++ "\" on \"" ++ fromName ++
               "\" is marked with directive \"@external\""⟩]
          else [])) ++
    (if f.external then
      [⟨.OVERRIDE_COLLISION_WITH_ANOTHER_DIRECTIVE,
        "@override cannot be used on field \"" ++ coord ++ "\" on subgraph \"" ++
          g.name ++ "\" since \"" ++ coord ++ "\" on \"" ++ g.name ++
          "\" is marked with directive \"@external\""⟩]
     else [])

/-- Modelled from the spec: whether the field's `@override(from:)` in
subgraph `g` is valid — it triggers no row of the error table, so its
rewriting (removing the overridden subgraph's contribution) takes place. -/
def validOverride (subs : List Subgraph) (g : Subgraph) (tname fname : String) : Bool :=
  match g.findField tname fname with
  | none => false
  | some f =>
    match f.overrideFrom with
    | none => false
    | some fromName =>
      fromName != g.name && !f.external &&
        (match findSubgraph subs fromName with
         | none => true
         | some src =>
           match src.findField tname fname with
           | none => true
           | some srcF => !srcF.overrideFrom.isSome && !srcF.external)

/-- Modelled from the spec: the subgraph (if any) that validly overrides the
field `tname.fname` away from subgraph `gname`. -/
def overriddenBy (subs : List Subgraph) (tname fname gname : String) : Option String :=
  (subs.find? fun h =>
    h.name != gname &&
      (match h.findField tname fname with
       | some hf => hf.overrideFrom == some gname
       | none => false) &&
      validOverride subs h tname fname).map Subgraph.name

/-- A `@join__field(graph:, external:)` application on a supergraph field. -/
structure JoinField where
  graph : String
  external : Bool
deriving DecidableEq

/-- Modelled from the spec: the `@join__field` applications of the
supergraph field `tname.fname` — one per subgraph defining the field, in
subgraph order, except that a subgraph whose contribution was removed by a
valid override keeps an `external: true` application when the field is a
component of its `@key` and is dropped otherwise; fields the subgraph marks
`@external` also carry `external: true`. -/
def joinFieldFor (subs : List Subgraph) (tname fname : String) (h : Subgraph) :
    Option JoinField :=
  match h.findField tname fname with
  | none => none
  | some hf =>
    if hf.external then some ⟨h.name, true⟩
    else
      match overriddenBy subs tname fname h.name with
      | some _ =>
        match h.findType tname with
        | some t => if t.keyFields.contains fname then some ⟨h.name, true⟩ else none
        | none => none
      | none => some ⟨h.name, false⟩

/-- The `@join__field` applications of the supergraph field: one
contribution per subgraph, in subgraph order. -/
def joinFieldsFor (subs : List Subgraph) (tname fname : String) : List JoinField :=
  subs.filterMap (joinFieldFor subs tname fname)

/-- Modelled from the spec: the subgraphs that actually resolve the field
after override rewriting — those defining it, not marking it `@external`,
and not validly overridden. -/
def resolversOf (subs : List Subgraph) (tname fname : String) : List String :=
  subs.filterMap fun h =>
    match h.findField tname fname with
    | none => none
    | some hf =>
      if !hf.external && (overriddenBy subs tname fname h.name).isNone then some h.name
      else none

/-- Modelled from the spec: whether the field is shareable in the named
subgraph — `@shareable` applied, or a `@key` field (implicitly shareable). -/
def shareableInSubgraph (subs : List Subgraph) (gname tname fname : String) : Bool :=
  match findSubgraph subs gname with
  | none => false
  | some g =>
    match g.findField tname fname with
    | none => false
    | some gf =>
      gf.shareable ||
        (match g.findType tname with
         | some t => t.keyFields.contains fname
         | none => false)

/-- Keep the first occurrence of each element (deterministic dedup). -/
def dedupBy {α : Type} [BEq α] (seen : List α) : List α → List α
  | [] => []
  | c :: rest =>
    if seen.contains c then dedupBy seen rest else c :: dedupBy (c :: seen) rest

/-- Quote and join subgraph names, the last two joined with `and`. -/
def quoteJoin : List String → String
  | [] => ""
  | [a] => "\"" ++ a ++ "\""
  | [a, b] => "\"" ++ a ++ "\" and \"" ++ b ++ "\""
  | a :: rest => "\"" ++ a ++ "\", " ++ quoteJoin rest

/-- All field coordinates defined anywhere, in subgraph order, deduplicated. -/
def allFieldCoords (subs : List Subgraph) : List (String × String) :=
  dedupBy [] (subs.flatMap fun g => g.types.flatMap fun t => t.fields.map fun f => (t.name, f.name))

/-- Modelled from the spec: all override errors, in subgraph, type and field
order. -/
def overrideErrors (subs : List Subgraph) : List CompError :=
  subs.flatMap fun g => g.types.flatMap fun t => t.fields.flatMap fun f =>
    overrideErrorsForField subs g t.name f.name f

/-- Modelled from the spec: one `INVALID_FIELD_SHARING` error per field that
is resolved by several subgraphs while non-shareable in all of them. -/
def sharingErrors (subs : List Subgraph) : List CompError :=
  (allFieldCoords subs).flatMap fun c =>
    let res := resolversOf subs c.1 c.2
    if decide (2 ≤ res.length) &&
        res.all (fun gname => !shareableInSubgraph subs gname c.1 c.2) then
      [⟨.INVALID_FIELD_SHARING,
        "Non-shareable field \"" ++ c.1 ++ "." ++ c.2 ++
          "\" is resolved from multiple subgraphs: it is resolved from subgraphs " ++
          quoteJoin res ++ " and defined as non-shareable in all of them"⟩]
    else []

/-- A supergraph field: its name and `@join__field` applications. -/
structure SupergraphField where
  name : String
  joinFields : List JoinField
deriving DecidableEq

/-- A supergraph type: the union of the per-subgraph fields. -/
structure SupergraphType where
  name : String
  fields : List SupergraphField
deriving DecidableEq

/-- The merged supergraph schema (restricted to what the override rules
determine). -/
structure Supergraph where
  types : List SupergraphType
deriving DecidableEq

/-- The type names of the supergraph, in merge order. -/
def typeNamesIn (subs : List Subgraph) : List String :=
  dedupBy [] (subs.flatMap fun g => g.types.map fun t => t.name)

/-- The field names of the supergraph type `tname`, in merge order. -/
def fieldNamesOf (subs : List Subgraph) (tname : String) : List String :=
  dedupBy [] (subs.flatMap fun g =>
    match g.findType tname with
    | some t => t.fields.map fun f => f.name
    | none => [])

/-- Modelled from the spec: merge the subgraphs into one supergraph — one
type per name, its field set the union of per-subgraph fields, each field
annotated by `joinFieldsFor`. -/
def composeSupergraph (subs : List Subgraph) : Supergraph :=
  ⟨(typeNamesIn subs).map fun tname =>
    ⟨tname, (fieldNamesOf subs tname).map fun fname =>
      ⟨fname, joinFieldsFor subs tname fname⟩⟩⟩

/-- A composition outcome: a supergraph, or a non-empty error list. -/
inductive CompositionResult where
  | success (supergraph : Supergraph)
  | failure (errors : List CompError)
deriving DecidableEq

/-- Modelled from the spec: compose an ordered list of subgraphs —
accumulate the override errors then the sharing errors; succeed exactly when
there are none. -/
def compose (subs : List Subgraph) : CompositionResult :=
  let errors := overrideErrors subs ++ sharingErrors subs
  if errors.isEmpty then .success (composeSupergraph subs) else .failure errors

/-- Look a supergraph field up by coordinate. -/
def Supergraph.findField (sg : Supergraph) (tname fname : String) : Option SupergraphField :=
  match sg.types.find? (·.name == tname) with
  | some t => t.fields.find? (·.name == fname)
  | none => none

theorem mem_dedupBy {α : Type} [BEq α] [LawfulBEq α] (seen l : List α) (x : α) :
    x ∈ dedupBy seen l ↔ x ∈ l ∧ x ∉ seen := by
  induction l generalizing seen with
  | nil => simp [dedupBy]
  | cons c rest ih =>
    by_cases hc : seen.contains c
    · have hcm : c ∈ seen := by
        simpa using hc
      rw [dedupBy, if_pos hc, ih seen]
      constructor
      · rintro ⟨hx, hns⟩
        exact ⟨List.mem_cons_of_mem _ hx, hns⟩
      · rintro ⟨hx, hns⟩
        rcases List.mem_cons.mp hx with rfl | hx'
        · exact absurd hcm hns
        · exact ⟨hx', hns⟩
    · have hcm : c ∉ seen := by
        simpa using hc
      rw [dedupBy, if_neg hc]
      constructor
      · intro hx
        rcases List.mem_cons.mp hx with rfl | hx'
        · exact ⟨List.mem_cons_self _ _, hcm⟩
        · obtain ⟨hr, hns⟩ := (ih (c :: seen)).mp hx'
          exact ⟨List.mem_cons_of_mem _ hr, fun hmem => hns (List.mem_cons_of_mem _ hmem)⟩
      · rintro ⟨hx, hns⟩
        rcases List.mem_cons.mp hx with rfl | hx'
        · exact List.mem_cons_self _ _
        · by_cases hxc : x = c
          · exact hxc ▸ List.mem_cons_self _ _
          · refine List.mem_cons_of_mem _ ((ih (c :: seen)).mpr ⟨hx', fun hmem => ?_⟩)
            rcases List.mem_cons.mp hmem with h1 | h2
            · exact hxc h1
            · exact hns h2

theorem nodup_dedupBy {α : Type} [BEq α] [LawfulBEq α] (seen l : List α) :
    (dedupBy seen l).Nodup := by
  induction l generalizing seen with
  | nil => simp [dedupBy]
  | cons c rest ih =>
    by_cases hc : seen.contains c
    · simpa only [dedupBy, if_pos hc] using ih seen
    · rw [dedupBy, if_neg hc, List.nodup_cons]
      refine ⟨fun hmem => ?_, ih (c :: seen)⟩
      exact ((mem_dedupBy (c :: seen) rest c).mp hmem).2 (List.mem_cons_self _ _)

theorem find?_map_builder {β : Type} (builder : String → β) (name : β → String)
    (hb : ∀ x, name (builder x) = x) {l : List String} (h : l.Nodup) {t : String}
    (ht : t ∈ l) :
    (l.map builder).find? (fun e => name e == t) = some (builder t) := by
  induction l with
  | nil => cases ht
  | cons a rest ih =>
    rw [List.nodup_cons] at h
    rcases List.mem_cons.mp ht with rfl | hmem
    · simp [List.find?, hb]
    · have hne : (name (builder a) == t) = false := by
        rw [hb, beq_eq_false_iff_ne]
        rintro rfl
        exact h.1 hmem
      rw [List.map_cons, List.find?, hne]
      exact ih h.2 hmem

theorem findField_facts {g : Subgraph} {tname fname : String} {f : SGField}
    (hf : g.findField tname fname = some f) :
    ∃ t ∈ g.types, t.name = tname ∧ f ∈ t.fields ∧ f.name = fname := by
  rw [Subgraph.findField] at hf
  rcases hft : g.findType tname with _ | t
  · rw [hft] at hf
    cases hf
  · rw [hft, Option.some_bind] at hf
    refine ⟨t, List.mem_of_find?_eq_some hft, ?_, List.mem_of_find?_eq_some hf, ?_⟩
    · have := List.find?_some hft
      simpa using this
    · have := List.find?_some hf
      simpa using this

theorem mem_typeNamesIn {subs : List Subgraph} {g : Subgraph} {tname fname : String}
    {f : SGField} (hg : g ∈ subs) (hf : g.findField tname fname = some f) :
    tname ∈ typeNamesIn subs := by
  obtain ⟨t, htmem, htn, _, _⟩ := findField_facts hf
  rw [typeNamesIn, mem_dedupBy]
  refine ⟨List.mem_flatMap.mpr ⟨g, hg, List.mem_map.mpr ⟨t, htmem, htn⟩⟩, List.not_mem_nil _⟩

theorem mem_fieldNamesOf {subs : List Subgraph} {g : Subgraph} {tname fname : String}
    {f : SGField} (hg : g ∈ subs) (hf : g.findField tname fname = some f) :
    fname ∈ fieldNamesOf subs tname := by
  rw [fieldNamesOf, mem_dedupBy]
  refine ⟨List.mem_flatMap.mpr ⟨g, hg, ?_⟩, List.not_mem_nil _⟩
  rw [Subgraph.findField] at hf
  rcases hft : g.findType tname with _ | t
  · rw [hft] at hf
    cases hf
  · rw [hft, Option.some_bind] at hf
    refine List.mem_map.mpr ⟨f, List.mem_of_find?_eq_some hf, ?_⟩
    have := List.find?_some hf
    simpa using this

theorem composeSupergraph_findField (subs : List Subgraph) {tname fname : String}
    (ht : tname ∈ typeNamesIn subs) (hfn : fname ∈ fieldNamesOf subs tname) :
    (composeSupergraph subs).findField tname fname =
      some ⟨fname, joinFieldsFor subs tname fname⟩ := by
  have h1 : (composeSupergraph subs).types.find? (fun e => e.name == tname) =
      some ⟨tname, (fieldNamesOf subs tname).map fun fn =>
        ⟨fn, joinFieldsFor subs tname fn⟩⟩ :=
    find?_map_builder
      (fun tn => (⟨tn, (fieldNamesOf subs tn).map fun fn =>
        ⟨fn, joinFieldsFor subs tn fn⟩⟩ : SupergraphType))
      SupergraphType.name (fun _ => rfl) (nodup_dedupBy _ _) ht
  rw [Supergraph.findField, h1]
  exact find?_map_builder (fun fn => (⟨fn, joinFieldsFor subs tname fn⟩ : SupergraphField))
    SupergraphField.name (fun _ => rfl) (nodup_dedupBy _ _) hfn

theorem joinFieldFor_graph {subs : List Subgraph} {tname fname : String}
    {h : Subgraph} {jf : JoinField}
    (heq : joinFieldFor subs tname fname h = some jf) : jf.graph = h.name := by
  unfold joinFieldFor at heq
  repeat' split at heq
  all_goals
    first
      | exact Option.noConfusion heq
      | (cases heq; rfl)

theorem validOverride_external_false {subs : List Subgraph} {g : Subgraph}
    {tname fname : String} {f : SGField}
    (hf : g.findField tname fname = some f)
    (hvalid : validOverride subs g tname fname = true) : f.external = false := by
  simp only [validOverride, hf] at hvalid
  rcases hov : f.overrideFrom with _ | fromName
  · simp only [hov] at hvalid
    exact Bool.noConfusion hvalid
  · simp only [hov, Bool.and_eq_true, Bool.not_eq_true'] at hvalid
    exact hvalid.1.2

theorem overriddenBy_none_of_override {subs : List Subgraph} {g : Subgraph}
    {tname fname : String} {f : SGField}
    (hnodup : (subs.map Subgraph.name).Nodup) (hg : g ∈ subs)
    (hf : g.findField tname fname = some f) (hover : f.overrideFrom.isSome = true) :
    overriddenBy subs tname fname g.name = none := by
  rw [overriddenBy]
  have hfind : (subs.find? fun h =>
      h.name != g.name &&
        (match h.findField tname fname with
         | some hf => hf.overrideFrom == some g.name
         | none => false) &&
        validOverride subs h tname fname) = none := by
    rw [List.find?_eq_none]
    intro x hx hpx
    simp only [Bool.and_eq_true] at hpx
    obtain ⟨⟨hxne, hxov⟩, hxvalid⟩ := hpx
    rcases hxf : x.findField tname fname with _ | xf
    · rw [hxf] at hxov
      exact Bool.noConfusion hxov
    · rw [hxf] at hxov
      have hxfrom : xf.overrideFrom = some g.name := by
        simpa using hxov
      have hfg : findSubgraph subs g.name = some g := by
        rw [findSubgraph]
        exact Precompute.find?_name_eq Subgraph.name hnodup hg
      simp only [validOverride, hxf, hxfrom, hfg, hf, Bool.and_eq_true,
        Bool.not_eq_true'] at hxvalid
      rw [hxvalid.2.1] at hover
      exact Bool.noConfusion hover
  rw [hfind]
  rfl

theorem joinFieldFor_overriding {subs : List Subgraph} {g : Subgraph}
    {tname fname : String} {f : SGField}
    (hf : g.findField tname fname = some f) (hext : f.external = false)
    (hob : overriddenBy subs tname fname g.name = none) :
    joinFieldFor subs tname fname g = some ⟨g.name, false⟩ := by
  simp [joinFieldFor, hf, hext, hob]

theorem overriddenBy_isSome_of_valid {subs : List Subgraph} {g src : Subgraph}
    {tname fname : String} {f : SGField}
    (hg : g ∈ subs) (hf : g.findField tname fname = some f)
    (hover : f.overrideFrom = some src.name) (hne : g.name ≠ src.name)
    (hvalid : validOverride subs g tname fname = true) :
    (overriddenBy subs tname fname src.name).isSome = true := by
  have hfindSome : (subs.find? fun h =>
      h.name != src.name &&
        (match h.findField tname fname with
         | some hf => hf.overrideFrom == some src.name
         | none => false) &&
        validOverride subs h tname fname).isSome = true := by
    rw [List.find?_isSome]
    refine ⟨g, hg, ?_⟩
    simp only [hf, hover, Bool.and_eq_true, bne_iff_ne, beq_self_eq_true, true_and,
      and_true]
    exact ⟨hne, hvalid⟩
  obtain ⟨y, hy⟩ := Option.isSome_iff_exists.mp hfindSome
  rw [overriddenBy, hy]
  rfl

theorem joinFieldFor_overridden {subs : List Subgraph} {src : Subgraph}
    {tname fname : String} {srcF : SGField} {tSrc : SGType}
    (hsrcFF : src.findField tname fname = some srcF)
    (htSrc : src.findType tname = some tSrc)
    (hkey : tSrc.keyFields.contains fname = true)
    (hob : (overriddenBy subs tname fname src.name).isSome = true) :
    joinFieldFor subs tname fname src = some ⟨src.name, true⟩ := by
  by_cases hext : srcF.external = true
  · simp [joinFieldFor, hsrcFF, hext]
  · obtain ⟨w, hw⟩ := Option.isSome_iff_exists.mp hob
    simp [joinFieldFor, hsrcFF, hext, hw, htSrc]
    simpa using hkey

set_option maxHeartbeats 1000000 in
/-- C3: for every composition that succeeds while a field `tname.fname` in
subgraph `g` carries a valid `@override(from: src)` and the field is a
component of the overridden subgraph's `@key`, the supergraph field carries
both `@join__field(graph: g)` and `@join__field(graph: src, external: true)`,
and `src` contributes no resolving (non-external) `@join__field` — its
contribution to the supergraph field set is removed. -/
theorem override_key_field_annotations (subs : List Subgraph) (sg : Supergraph)
    (g src : Subgraph) (tname fname : String) (f srcF : SGField) (tSrc : SGType)
    (hnodup : (subs.map Subgraph.name).Nodup)
    (hg : g ∈ subs) (hsrc : src ∈ subs)
    (hf : g.findField tname fname = some f)
    (hover : f.overrideFrom = some src.name)
    (hne : g.name ≠ src.name)
    (htSrc : src.findType tname = some tSrc)
    (hsrcFF : src.findField tname fname = some srcF)
    (hkey : tSrc.keyFields.contains fname = true)
    (hvalid : validOverride subs g tname fname = true)
    (hcomp : compose subs = .success sg) :
    ∃ sf, sg.findField tname fname = some sf ∧
      (⟨g.name, false⟩ : JoinField) ∈ sf.joinFields ∧
      (⟨src.name, true⟩ : JoinField) ∈ sf.joinFields ∧
      (⟨src.name, false⟩ : JoinField) ∉ sf.joinFields := by
  have hsg : sg = composeSupergraph subs := by
    rw [compose] at hcomp
    by_cases he : (overrideErrors subs ++ sharingErrors subs).isEmpty
    · rw [if_pos he] at hcomp
      exact (CompositionResult.success.inj hcomp).symm
    · rw [if_neg he] at hcomp
      exact CompositionResult.noConfusion hcomp
  subst hsg
  have hffind := composeSupergraph_findField subs (mem_typeNamesIn hg hf)
    (mem_fieldNamesOf hg hf)
  refine ⟨_, hffind, ?_, ?_, ?_⟩
  · refine List.mem_filterMap.mpr ⟨g, hg, ?_⟩
    exact joinFieldFor_overriding hf (validOverride_external_false hf hvalid)
      (overriddenBy_none_of_override hnodup hg hf (by rw [hover]; rfl))
  · refine List.mem_filterMap.mpr ⟨src, hsrc, ?_⟩
    exact joinFieldFor_overridden hsrcFF htSrc hkey
      (overriddenBy_isSome_of_valid hg hf hover hne hvalid)
  · intro hmem
    obtain ⟨h, hh, hfn⟩ := List.mem_filterMap.mp hmem
    have hgr : (⟨src.name, false⟩ : JoinField).graph = h.name := joinFieldFor_graph hfn
    have hhsrc : h = src := by
      refine List.inj_on_of_nodup_map hnodup hh hsrc ?_
      exact hgr.symm
    rw [hhsrc] at hfn
    rw [joinFieldFor_overridden hsrcFF htSrc hkey
      (overriddenBy_isSome_of_valid hg hf hover hne hvalid)] at hfn
    have hjf : (⟨src.name, true⟩ : JoinField) = ⟨src.name, false⟩ :=
      Option.some.inj hfn
    exact Bool.noConfusion (congrArg JoinField.external hjf)

/-- Subgraph1 of the "override @key field" scenario:
`T.k @override(from: "Subgraph2")` where `k` is the `@key`. -/
def keySubgraph1 : Subgraph :=
  ⟨"Subgraph1", "https://Subgraph1",
    [⟨"Query", [], [⟨"t", none, false, false⟩]⟩,
     ⟨"T", ["k"], [⟨"k", some "Subgraph2", false, false⟩, ⟨"a", none, false, false⟩]⟩]⟩

/-- Subgraph2 of the "override @key field" scenario. -/
def keySubgraph2 : Subgraph :=
  ⟨"Subgraph2", "https://Subgraph2",
    [⟨"T", ["k"], [⟨"k", none, false, false⟩, ⟨"b", none, false, false⟩]⟩]⟩

set_option maxRecDepth 20000 in
/-- C3 witness: the "override @key field" test scenario — composition
succeeds and the supergraph `T.k` carries `@join__field(graph: Subgraph1)`
and `@join__field(graph: Subgraph2, external: true)` with no resolving
contribution from Subgraph2. -/
theorem override_key_field_annotations_witness :
    ∃ sf, (composeSupergraph [keySubgraph1, keySubgraph2]).findField "T" "k" = some sf ∧
      (⟨"Subgraph1", false⟩ : JoinField) ∈ sf.joinFields ∧
      (⟨"Subgraph2", true⟩ : JoinField) ∈ sf.joinFields ∧
      (⟨"Subgraph2", false⟩ : JoinField) ∉ sf.joinFields :=
  override_key_field_annotations [keySubgraph1, keySubgraph2]
    (composeSupergraph [keySubgraph1, keySubgraph2])
    keySubgraph1 keySubgraph2 "T" "k"
    ⟨"k", some "Subgraph2", false, false⟩ ⟨"k", none, false, false⟩
    ⟨"T", ["k"], [⟨"k", none, false, false⟩, ⟨"b", none, false, false⟩]⟩
    (by decide) (by decide) (by decide) (by decide) (by decide) (by decide)
    (by decide) (by decide) (by decide) (by decide) (by decide)

/-- Subgraph1 of the two-way-override scenario: `T.a @override(from: "Subgraph2")`. -/
def twoWaySubgraph1 : Subgraph :=
  ⟨"Subgraph1", "https://Subgraph1",
    [⟨"Query", [], [⟨"t", none, false, false⟩]⟩,
     ⟨"T", ["k"], [⟨"k", none, false, false⟩, ⟨"a", some "Subgraph2", false, false⟩]⟩]⟩

/-- Subgraph2 of the two-way-override scenario: `T.a @override(from: "Subgraph1")`. -/
def twoWaySubgraph2 : Subgraph :=
  ⟨"Subgraph2", "https://Subgraph2",
    [⟨"T", ["k"], [⟨"k", none, false, false⟩, ⟨"a", some "Subgraph1", false, false⟩]⟩]⟩

set_option maxRecDepth 20000 in
/-- C4: composing the two-way-override pair fails with exactly three errors —
one `OVERRIDE_SOURCE_HAS_OVERRIDE` per side followed by one
`INVALID_FIELD_SHARING` for `T.a`, with the messages the test pins down.
The error list is the value of a function of the input subgraph list, hence
deterministic. -/
theorem two_way_override_three_errors :
    compose [twoWaySubgraph1, twoWaySubgraph2] =
      .failure
        [⟨.OVERRIDE_SOURCE_HAS_OVERRIDE,
          "Field \"T.a\" on subgraph \"Subgraph1\" is also marked with directive @override in subgraph \"Subgraph2\". Only one @override directive is allowed per field."⟩,
         ⟨.OVERRIDE_SOURCE_HAS_OVERRIDE,
          "Field \"T.a\" on subgraph \"Subgraph2\" is also marked with directive @override in subgraph \"Subgraph1\". Only one @override directive is allowed per field."⟩,
         ⟨.INVALID_FIELD_SHARING,
          "Non-shareable field \"T.a\" is resolved from multiple subgraphs: it is resolved from subgraphs \"Subgraph1\" and \"Subgraph2\" and defined as non-shareable in all of them"⟩] := by
  decide

end Compose

namespace SOM

/-- A structured GraphQL value, as held in directive-application argument
maps and argument default values (`valueFromASTUntyped` output; numeric
coercion is outside the model's scope, so AST value nodes and built values
coincide). -/
inductive JVal where
  | jnull
  | jbool (b : Bool)
  | jint (n : Int)
  | jstr (s : String)
  | jenum (s : String)
  | jlist (vs : List JVal)
  | jobj (fs : List (String × JVal))

/-- A type reference as held by a field, input field or argument: a named
type (standing for the referenced type object, which within one schema is
determined by its name) possibly wrapped in `ListType`s. -/
inductive TypeRefD where
  | named (name : String)
  | listOf (t : TypeRefD)
deriving DecidableEq

/-- The base named type of a reference (`ListType.baseType`). -/
def baseTypeName : TypeRefD → String
  | .named n => n
  | .listOf t => baseTypeName t

/-- The three schema roots. -/
inductive SchemaRootK where
  | query
  | mutation
  | subscription
deriving DecidableEq

/-- An identifier for a schema element as a member of a referencer set.
The source stores object references; within one well-formed schema each
element is determined by this path. -/
inductive ElemRef where
  | schemaDefRef
  | typeRef (name : String)
  | fieldRef (typeName fieldName : String)
  | inputFieldRef (typeName fieldName : String)
  | fieldArgRef (typeName fieldName argName : String)
  | directiveArgRef (directiveName argName : String)
deriving DecidableEq

/-- A directive application: name and argument map (insertion order kept). -/
structure DirectiveAppD where
  name : String
  args : List (String × JVal)

/-- An argument definition of a field or directive definition. -/
structure ArgDefD where
  name : String
  type : Option TypeRefD
  defaultValue : Option JVal
  appliedDirectives : List DirectiveAppD

/-- A field definition of an object type. -/
structure FieldDefD where
  name : String
  type : Option TypeRefD
  args : List ArgDefD
  appliedDirectives : List DirectiveAppD

/-- An input field definition of an input object type. -/
structure InputFieldDefD where
  name : String
  type : Option TypeRefD
  appliedDirectives : List DirectiveAppD

/-- The kind of a named type (interface and enum are not implemented by the
source). -/
inductive TypeKindD where
  | scalarK
  | objectK
  | unionK
  | inputObjectK
deriving DecidableEq

/-- A named type: one tagged record covering the four variants; only the
variant's own list is populated. -/
structure NamedTypeD where
  kind : TypeKindD
  name : String
  appliedDirectives : List DirectiveAppD
  fields : List FieldDefD
  inputFields : List InputFieldDefD
  unionMembers : List String

/-- A directive definition (owned by the schema). -/
structure DirectiveDefD where
  name : String
  args : List ArgDefD

/-- The schema definition: root assignments (root type referenced by name)
and applied directives. -/
structure SchemaDefD where
  roots : List (SchemaRootK × String)
  appliedDirectives : List DirectiveAppD

/-- A schema: the mutable/immutable view tag, the optional schema
definition, the user type map, the directive definition map, and the
referencer sets.  JavaScript `Map`s become insertion-ordered association
lists; each named type's referencer `Set` is kept in `refs`, keyed by the
type's name (the source holds the set inside the type object — within one
schema the name determines the object). -/
structure MSchema where
  mutableFlag : Bool
  schemaDef : Option SchemaDefD
  types : List NamedTypeD
  directiveDefs : List DirectiveDefD
  refs : List (String × List ElemRef)

/-- The names of the built-in scalar types. -/
def builtInTypes : List String := ["Int", "Float", "String", "Boolean", "ID"]

/-- The synthetic built-in scalar type of the given name. -/
def builtInShell (n : String) : NamedTypeD := ⟨.scalarK, n, [], [], [], []⟩

/-- Look a name up in the user type map only. -/
def lookupUserType (s : MSchema) (n : String) : Option NamedTypeD :=
  s.types.find? (·.name == n)

/-- `BaseSchema.type`: the user type of that name, or the built-in. -/
def typeOf (s : MSchema) (n : String) : Option NamedTypeD :=
  match lookupUserType s n with
  | some t => some t
  | none => if builtInTypes.contains n then some (builtInShell n) else none

/-- `Ctors.schema()`: a fresh schema with built-ins (and their empty
referencer sets) and nothing else. -/
def newSchema (mutableFlag : Bool) : MSchema :=
  ⟨mutableFlag, none, [], [], builtInTypes.map fun n => (n, [])⟩

/-- Add a referencer to the named type's referencer set (`Set.add`:
idempotent, insertion-ordered). -/
def addRefTo (s : MSchema) (tname : String) (r : ElemRef) : MSchema :=
  { s with refs := s.refs.map fun e =>
      if e.1 == tname then (e.1, if e.2.contains r then e.2 else e.2 ++ [r]) else e }

/-- `addReferencerToType`: for a list type, register on the base type. -/
def addReferencerToType (referencer : ElemRef) (type : TypeRefD) (s : MSchema) : MSchema :=
  addRefTo s (baseTypeName type) referencer

/-- The referencer set registered for the named type. -/
def refsOf (s : MSchema) (tname : String) : List ElemRef :=
  (s.refs.lookup tname).getD []

/-- JavaScript `Map.set` on the type map: replace in place or append. -/
def mapSetType (l : List NamedTypeD) (t : NamedTypeD) : List NamedTypeD :=
  if l.any (·.name == t.name) then l.map (fun u => if u.name == t.name then t else u)
  else l ++ [t]

/-- JavaScript `Map.set` on a field map. -/
def mapSetField (l : List FieldDefD) (f : FieldDefD) : List FieldDefD :=
  if l.any (·.name == f.name) then l.map (fun u => if u.name == f.name then f else u)
  else l ++ [f]

/-- JavaScript `Map.set` on an input field map. -/
def mapSetInputField (l : List InputFieldDefD) (f : InputFieldDefD) : List InputFieldDefD :=
  if l.any (·.name == f.name) then l.map (fun u => if u.name == f.name then f else u)
  else l ++ [f]

/-- JavaScript `Map.set` on an argument map. -/
def mapSetArg (l : List ArgDefD) (a : ArgDefD) : List ArgDefD :=
  if l.any (·.name == a.name) then l.map (fun u => if u.name == a.name then a else u)
  else l ++ [a]

/-- JavaScript `Map.set` on the directive definition map. -/
def mapSetDirDef (l : List DirectiveDefD) (dd : DirectiveDefD) : List DirectiveDefD :=
  if l.any (·.name == dd.name) then l.map (fun u => if u.name == dd.name then dd else u)
  else l ++ [dd]

/-- JavaScript `Map.set` on the root map. -/
def mapSetRoot (l : List (SchemaRootK × String)) (r : SchemaRootK) (tn : String) :
    List (SchemaRootK × String) :=
  if l.any (·.1 == r) then l.map (fun u => if u.1 == r then (r, tn) else u)
  else l ++ [(r, tn)]

/-- `addTypeDefinition`: register a named type in the schema's type map,
giving it an (empty) referencer set if its name has none yet. -/
def addTypeDefinitionS (t : NamedTypeD) (s : MSchema) : MSchema :=
  { s with
    types := mapSetType s.types t,
    refs := if s.refs.any (·.1 == t.name) then s.refs else s.refs ++ [(t.name, [])] }

/-- Update the named user type in place. -/
def modifyTypes (s : MSchema) (tname : String) (fn : NamedTypeD → NamedTypeD) : MSchema :=
  { s with types := s.types.map fun t => if t.name == tname then fn t else t }

/-- The errors thrown (or crashes hit) by schema construction. -/
inductive GErr where
  | graphQLError (message : String)
  | todoError (message : String)
  | plainError (message : String)
  | jsTypeError
  | assertionFailed (message : String)
deriving DecidableEq

/-- A type node of the external AST. -/
inductive TypeNodeD where
  | namedT (name : String)
  | listT (t : TypeNodeD)
  | nonNullT (t : TypeNodeD)

/-- A directive node of the external AST (argument values are already
structured; `buildValue`'s coercion concerns are out of scope). -/
structure DirectiveNodeD where
  name : String
  args : List (String × JVal)

/-- An input value definition node (argument or input field). -/
structure InputValueDefNodeD where
  name : String
  type : TypeNodeD
  defaultValue : Option JVal
  directives : List DirectiveNodeD

/-- A field definition node. -/
structure FieldDefNodeD where
  name : String
  args : List InputValueDefNodeD
  type : TypeNodeD
  directives : List DirectiveNodeD

/-- A definition node of the external AST document. -/
inductive DefinitionNodeD where
  | operationDef
  | fragmentDef
  | schemaDefNode (directives : List DirectiveNodeD)
      (operationTypes : List (SchemaRootK × String))
  | scalarTypeDef (name : String) (directives : List DirectiveNodeD)
  | objectTypeDef (name : String) (directives : List DirectiveNodeD)
      (fields : List FieldDefNodeD)
  | interfaceTypeDef (name : String)
  | unionTypeDef (name : String) (directives : List DirectiveNodeD)
      (types : List String)
  | enumTypeDef (name : String)
  | inputObjectTypeDef (name : String) (directives : List DirectiveNodeD)
      (fields : List InputValueDefNodeD)
  | directiveDefNode (name : String) (args : List InputValueDefNodeD)
  | extensionNode

/-- `buildDirective`: a directive application from a directive node, its
argument map built entry by entry. -/
def buildDirective (d : DirectiveNodeD) : DirectiveAppD := ⟨d.name, d.args⟩

/-- `buildWrapperTypeOrTypeRef`: resolve a type node against the schema.
A `NonNullType` raises the not-implemented error.  An unresolvable name
yields `undefined` in the source, which crashes with a `TypeError` moments
later when `addReferencerToType` reads `.kind` on it; the model raises that
crash here, before any state it would have discarded. -/
def buildWrapperTypeOrTypeRef (s : MSchema) : TypeNodeD → Except GErr TypeRefD
  | .namedT n =>
    if (typeOf s n).isSome then .ok (.named n) else .error .jsTypeError
  | .listT t => do
    let inner ← buildWrapperTypeOrTypeRef s t
    .ok (.listOf inner)
  | .nonNullT _ => .error (.todoError "TODO")

/-- `buildFieldArgumentDefinition` (and its directive-definition twin): the
argument is built, its directives applied, and its referencer registered on
the base type. -/
def buildArgumentDefinition (s : MSchema) (node : InputValueDefNodeD)
    (ref : ElemRef) : Except GErr (ArgDefD × MSchema) := do
  let tr ← buildWrapperTypeOrTypeRef s node.type
  let built : ArgDefD := ⟨node.name, some tr, node.defaultValue, node.directives.map buildDirective⟩
  .ok (built, addReferencerToType ref tr s)

/-- `buildFieldDefinition`: build the field's type, directives and
arguments, then register the field as a referencer of its base type. -/
def buildFieldDefinition (s : MSchema) (tname : String) (node : FieldDefNodeD) :
    Except GErr (FieldDefD × MSchema) := do
  let tr ← buildWrapperTypeOrTypeRef s node.type
  let (args, s) ← node.args.foldlM
    (fun (acc : List ArgDefD × MSchema) a => do
      let (arg, s') ← buildArgumentDefinition acc.2 a (.fieldArgRef tname node.name a.name)
      .ok (acc.1 ++ [arg], s'))
    (([] : List ArgDefD), s)
  let built : FieldDefD := ⟨node.name, some tr, args, node.directives.map buildDirective⟩
  .ok (built, addReferencerToType (.fieldRef tname node.name) tr s)

/-- `buildInputFieldDefinition`. -/
def buildInputFieldDefinition (s : MSchema) (tname : String)
    (node : InputValueDefNodeD) : Except GErr (InputFieldDefD × MSchema) := do
  let tr ← buildWrapperTypeOrTypeRef s node.type
  let built : InputFieldDefD := ⟨node.name, some tr, node.directives.map buildDirective⟩
  .ok (built, addReferencerToType (.inputFieldRef tname node.name) tr s)

/-- `addRoot`: resolve the root type name, set the root and register the
schema definition as a referencer; an unresolvable name crashes in
`addReferencerToType`. -/
def addRootM (r : SchemaRootK) (tn : String) (s : MSchema) : Except GErr MSchema :=
  match s.schemaDef with
  | none =>
    .error (.assertionFailed "Badly constructed schema; doesn't have a schema definition")
  | some sd =>
    match typeOf s tn with
    | none => .error .jsTypeError
    | some _ =>
      let s := { s with schemaDef := some ⟨mapSetRoot sd.roots r tn, sd.appliedDirectives⟩ }
      .ok (addRefTo s tn .schemaDefRef)

/-- `createNamedType` (the shallow shell): interface and enum kinds hit the
`assert(false)` of the missing branches. -/
def createNamedTypeShell (node : DefinitionNodeD) : Option (Except GErr NamedTypeD) :=
  match node with
  | .scalarTypeDef n _ => some (.ok ⟨.scalarK, n, [], [], [], []⟩)
  | .objectTypeDef n _ _ => some (.ok ⟨.objectK, n, [], [], [], []⟩)
  | .unionTypeDef n _ _ => some (.ok ⟨.unionK, n, [], [], [], []⟩)
  | .inputObjectTypeDef n _ _ => some (.ok ⟨.inputObjectK, n, [], [], [], []⟩)
  | .interfaceTypeDef n => some (.error (.assertionFailed ("Missing branch for type InterfaceType " ++ n)))
  | .enumTypeDef n => some (.error (.assertionFailed ("Missing branch for type EnumType " ++ n)))
  | .extensionNode => some (.error (.todoError "Extensions are a TODO"))
  | _ => none

/-- `buildNamedTypeShallow`: first pass, create empty shells for every type
definition so forward references resolve. -/
def buildNamedTypeShallow (doc : List DefinitionNodeD) (s : MSchema) :
    Except GErr MSchema :=
  doc.foldlM
    (fun s node =>
      match createNamedTypeShell node with
      | some (.ok shell) => .ok (addTypeDefinitionS shell s)
      | some (.error e) => .error e
      | none => .ok s)
    s

/-- `buildNamedTypeInner`: apply the node's directives to the shell and fill
its fields, union members or input fields. -/
def buildNamedTypeInner (node : DefinitionNodeD) (s : MSchema) : Except GErr MSchema :=
  match node with
  | .scalarTypeDef n dirs =>
    .ok (modifyTypes s n fun t =>
      { t with appliedDirectives := t.appliedDirectives ++ dirs.map buildDirective })
  | .objectTypeDef n dirs fields => do
    let s := modifyTypes s n fun t =>
      { t with appliedDirectives := t.appliedDirectives ++ dirs.map buildDirective }
    fields.foldlM
      (fun s fnode => do
        let (field, s) ← buildFieldDefinition s n fnode
        .ok (modifyTypes s n fun t => { t with fields := mapSetField t.fields field }))
      s
  | .unionTypeDef n dirs members => do
    let s := modifyTypes s n fun t =>
      { t with appliedDirectives := t.appliedDirectives ++ dirs.map buildDirective }
    members.foldlM
      (fun s m =>
        match typeOf s m with
        | none => .error .jsTypeError
        | some _ =>
          .ok (addRefTo (modifyTypes s n fun t =>
            { t with unionMembers := t.unionMembers ++ [m] }) m (.typeRef n)))
      s
  | .inputObjectTypeDef n dirs fields => do
    let s := modifyTypes s n fun t =>
      { t with appliedDirectives := t.appliedDirectives ++ dirs.map buildDirective }
    fields.foldlM
      (fun s fnode => do
        let (field, s) ← buildInputFieldDefinition s n fnode
        .ok (modifyTypes s n fun t =>
          { t with inputFields := mapSetInputField t.inputFields field }))
      s
  | _ => .error (.todoError "TODO")

/-- `buildSchemaDefinition`: add the schema definition, apply its
directives, and add each root. -/
def buildSchemaDefinition (dirs : List DirectiveNodeD)
    (opTypes : List (SchemaRootK × String)) (s : MSchema) : Except GErr MSchema := do
  let s := { s with schemaDef := some ⟨[], dirs.map buildDirective⟩ }
  opTypes.foldlM (fun s rt => addRootM rt.1 rt.2 s) s

/-- `buildDirectiveDefinition` followed by `addDirectiveDefinition`. -/
def buildDirectiveDefinitionM (name : String) (args : List InputValueDefNodeD)
    (s : MSchema) : Except GErr MSchema := do
  let (builtArgs, s) ← args.foldlM
    (fun (acc : List ArgDefD × MSchema) a => do
      let (arg, s') ← buildArgumentDefinition acc.2 a (.directiveArgRef name a.name)
      .ok (acc.1 ++ [arg], s'))
    (([] : List ArgDefD), s)
  .ok { s with directiveDefs := mapSetDirDef s.directiveDefs ⟨name, builtArgs⟩ }

/-- `buildSchemaInternal`: the two-pass build over the external AST. -/
def buildSchemaInternal (doc : List DefinitionNodeD) (mutableFlag : Bool) :
    Except GErr MSchema := do
  let s := newSchema mutableFlag
  let s ← buildNamedTypeShallow doc s
  doc.foldlM
    (fun s node =>
      match node with
      | .operationDef =>
        .error (.graphQLError "Invalid executable definition found while building schema")
      | .fragmentDef =>
        .error (.graphQLError "Invalid executable definition found while building schema")
      | .schemaDefNode dirs ops => buildSchemaDefinition dirs ops s
      | .scalarTypeDef .. => buildNamedTypeInner node s
      | .objectTypeDef .. => buildNamedTypeInner node s
      | .interfaceTypeDef _ => buildNamedTypeInner node s
      | .unionTypeDef .. => buildNamedTypeInner node s
      | .enumTypeDef _ => buildNamedTypeInner node s
      | .inputObjectTypeDef .. => buildNamedTypeInner node s
      | .directiveDefNode name args => buildDirectiveDefinitionM name args s
      | .extensionNode => .error (.todoError "Extensions are a TODO"))
    s

/-- `Schema.parse` / `MutableSchema.parse` (the external `parse` of the
GraphQL source text is out of scope; the document is the input). -/
def parse (mutableFlag : Bool) (doc : List DefinitionNodeD) : Except GErr MSchema :=
  buildSchemaInternal doc mutableFlag

/-- The error raised for a detached (undefined) source type reference during
copy: the immutable constructors' `checkDetached` throws, while the mutable
ones pass `undefined` through and `addReferencerToType` crashes on it. -/
def checkDetachedErr (destMutable : Bool) : GErr :=
  if destMutable then .jsTypeError else .plainError "Invalid detached value"

/-- `copyWrapperTypeOrTypeRef` on an argument-like element: rebuild the
reference through the destination's type map (the rebuilt reference has the
same shape because names are preserved by the shallow copy); an
unresolvable base name crashes in the `addReferencerToType` that follows. -/
def copyArgDef (destMutable : Bool) (d : MSchema) (a : ArgDefD) : Except GErr ArgDefD :=
  match a.type with
  | none => .error (checkDetachedErr destMutable)
  | some tr =>
    if (typeOf d (baseTypeName tr)).isSome then
      .ok ⟨a.name, some tr, a.defaultValue, a.appliedDirectives⟩
    else .error .jsTypeError

/-- `copyFieldArgumentDefinition` / `copyDirectiveArgumentDefinition`
applied to a whole argument map. -/
def copyArgDefs (destMutable : Bool) (d : MSchema) (args : List ArgDefD) :
    Except GErr (List ArgDefD) :=
  args.mapM (copyArgDef destMutable d)

/-- Register the copied arguments as referencers of their base types
(the referencer half of the argument-copy loop; referencer writes never
affect the type-map reads of the structural half). -/
def addArgRefs (mk : String → ElemRef) (d : MSchema) (args : List ArgDefD) : MSchema :=
  args.foldl
    (fun d a =>
      match a.type with
      | some tr => addRefTo d (baseTypeName tr) (mk a.name)
      | none => d)
    d

/-- `copyFieldDefinition` followed by the caller's `addField`. -/
def copyFieldDefinitionM (destMutable : Bool) (tname : String) (f : FieldDefD)
    (d : MSchema) : Except GErr MSchema :=
  match f.type with
  | none => .error (checkDetachedErr destMutable)
  | some tr =>
    if (typeOf d (baseTypeName tr)).isSome then do
      let args ← copyArgDefs destMutable d f.args
      let d := addArgRefs (fun an => .fieldArgRef tname f.name an) d args
      let d := addRefTo d (baseTypeName tr) (.fieldRef tname f.name)
      .ok (modifyTypes d tname fun t =>
        { t with fields := mapSetField t.fields ⟨f.name, some tr, args, f.appliedDirectives⟩ })
    else .error .jsTypeError

/-- `copyInputFieldDefinition` followed by the caller's `addField`. -/
def copyInputFieldDefM (destMutable : Bool) (tname : String) (f : InputFieldDefD)
    (d : MSchema) : Except GErr MSchema :=
  match f.type with
  | none => .error (checkDetachedErr destMutable)
  | some tr =>
    if (typeOf d (baseTypeName tr)).isSome then
      let d := addRefTo d (baseTypeName tr) (.inputFieldRef tname f.name)
      .ok (modifyTypes d tname fun t =>
        { t with inputFields := mapSetInputField t.inputFields ⟨f.name, some tr, f.appliedDirectives⟩ })
    else .error .jsTypeError

/-- `addTypeToUnion` during copy: resolve the member by name, push it and
register the union as a referencer. -/
def addTypeToUnionM (tname m : String) (d : MSchema) : Except GErr MSchema :=
  match typeOf d m with
  | none => .error .jsTypeError
  | some _ =>
    .ok (addRefTo (modifyTypes d tname fun t =>
      { t with unionMembers := t.unionMembers ++ [m] }) m (.typeRef tname))

/-- `copyNamedTypeInner`: copy applied directives, then fields, union
members or input fields into the shallow shell. -/
def copyNamedTypeInnerM (destMutable : Bool) (t : NamedTypeD) (d : MSchema) :
    Except GErr MSchema :=
  match lookupUserType d t.name with
  | none => .error .jsTypeError
  | some _ =>
    let d := modifyTypes d t.name fun shell =>
      { shell with appliedDirectives := shell.appliedDirectives ++ t.appliedDirectives }
    match t.kind with
    | .objectK => t.fields.foldlM (fun d f => copyFieldDefinitionM destMutable t.name f d) d
    | .unionK => t.unionMembers.foldlM (fun d m => addTypeToUnionM t.name m d) d
    | .inputObjectK =>
      t.inputFields.foldlM (fun d f => copyInputFieldDefM destMutable t.name f d) d
    | .scalarK => .ok d

/-- `copyDirectiveDefinition` followed by `addDirectiveDefinition`. -/
def copyDirectiveDefM (destMutable : Bool) (dd : DirectiveDefD) (d : MSchema) :
    Except GErr MSchema := do
  let args ← copyArgDefs destMutable d dd.args
  let d := addArgRefs (fun an => .directiveArgRef dd.name an) d args
  .ok { d with directiveDefs := mapSetDirDef d.directiveDefs ⟨dd.name, args⟩ }

/-- `copyNamedTypeShallow`: the empty shell of the same kind and name. -/
def shellOf (t : NamedTypeD) : NamedTypeD := ⟨t.kind, t.name, [], [], [], []⟩

/-- `copy(source, destCtors)`: add a schema definition, shallow-copy all
type shells, copy the schema definition's roots and directives, fill every
type, and copy the directive definitions. -/
def copySchema (source : MSchema) (destMutable : Bool) : Except GErr MSchema :=
  match source.schemaDef with
  | none =>
    .error (.assertionFailed "Badly constructed schema; doesn't have a schema definition")
  | some sd => do
    let d := { newSchema destMutable with schemaDef := some (⟨[], []⟩ : SchemaDefD) }
    let d := source.types.foldl (fun d t => addTypeDefinitionS (shellOf t) d) d
    let d ← sd.roots.foldlM (fun d rt => addRootM rt.1 rt.2 d) d
    let d := { d with schemaDef := d.schemaDef.map fun sd' =>
      ⟨sd'.roots, sd'.appliedDirectives ++ sd.appliedDirectives⟩ }
    let d ← source.types.foldlM (fun d t => copyNamedTypeInnerM destMutable t d) d
    let d ← source.directiveDefs.foldlM (fun d dd => copyDirectiveDefM destMutable dd d) d
    .ok d

/-- `MutableSchema.toImmutable`. -/
def toImmutable (s : MSchema) : Except GErr MSchema := copySchema s false

/-- `Schema.toMutable`. -/
def toMutable (s : MSchema) : Except GErr MSchema := copySchema s true

/-- A handle on a `MutableFieldDefinition`: attached to a schema of the
world (a list of live schemas) at a type/field path, or detached. -/
inductive MutableFieldHandle where
  | attachedField (schemaIdx : Nat) (typeName fieldName : String)
  | detachedField (fieldName : String)

/-- A handle on a `MutableOutputType`: a type reference whose base type
belongs to a schema of the world, or a detached type. -/
inductive MutableTypeHandle where
  | attachedType (schemaIdx : Nat) (t : TypeRefD)
  | detachedType

/-- Update one schema of the world. -/
def updateWorld : List MSchema → Nat → (MSchema → MSchema) → List MSchema
  | [], _, _ => []
  | s :: rest, 0, fn => fn s :: rest
  | s :: rest, i + 1, fn => s :: updateWorld rest i fn

/-- `MutableFieldDefinition.setType`: throws when the field is detached or
when the type belongs to a different schema (or none); on success it sets
`this._type` — and nothing else: neither the old nor the new type's
referencer set is touched. -/
def setType (w : List MSchema) (f : MutableFieldHandle) (newType : MutableTypeHandle) :
    Except GErr (List MSchema) :=
  match f with
  | .detachedField fname =>
    .error (.graphQLError ("Cannot set the type of field " ++ fname ++ " as it is detached"))
  | .attachedField i tname fname =>
    match newType with
    | .detachedType =>
      .error (.graphQLError ("Cannot set provided type to field " ++ fname ++
        " as it is not attached to this schema (it is detached)"))
    | .attachedType j tr =>
      if j ≠ i then
        .error (.graphQLError ("Cannot set provided type to field " ++ fname ++
          " as it is not attached to this schema (it is attached to another schema)"))
      else
        .ok (updateWorld w i fun s => modifyTypes s tname fun t =>
          { t with fields := t.fields.map fun fd =>
              if fd.name == fname then { fd with type := some tr } else fd })

/-- `MutableObjectType.addField`: throws when the field name exists or the
type belongs to a different schema (or none); on success it creates the
field and registers it in the field map — without registering the field in
the type's referencer set (unlike `buildFieldDefinition` and
`copyFieldDefinition`, which call `addReferencerToType`). -/
def addField (w : List MSchema) (i : Nat) (tname fname : String)
    (newType : MutableTypeHandle) : Except GErr (List MSchema) :=
  match w[i]? with
  | none => .error .jsTypeError
  | some s =>
    match lookupUserType s tname with
    | none => .error .jsTypeError
    | some t =>
      if t.fields.any (·.name == fname) then
        .error (.graphQLError ("Field " ++ fname ++ " already exists in type " ++ tname))
      else
        match newType with
        | .detachedType =>
          .error (.graphQLError ("Cannot use provided type as it is not attached to this schema (it is detached)"))
        | .attachedType j tr =>
          if j ≠ i then
            .error (.graphQLError ("Cannot use provided type as it is not attached to this schema (it is attached to another schema)"))
          else
            .ok (updateWorld w i fun s => modifyTypes s tname fun t =>
              { t with fields := mapSetField t.fields ⟨fname, some tr, [], []⟩ })

/-- Whether the element `r` is registered as a referencer of type `tn`. -/
def refHolds (s : MSchema) (tn : String) (r : ElemRef) : Bool :=
  (refsOf s tn).contains r

/-- The referencer-symmetry check for one field: its type reference and its
arguments' type references are all registered. -/
def fieldRefsOk (s : MSchema) (tname : String) (f : FieldDefD) : Bool :=
  (match f.type with
   | some tr => refHolds s (baseTypeName tr) (.fieldRef tname f.name)
   | none => true) &&
  f.args.all fun a =>
    match a.type with
    | some tr => refHolds s (baseTypeName tr) (.fieldArgRef tname f.name a.name)
    | none => true

/-- Referencer symmetry: every element of the schema that references a
named type is a member of that type's referencer set. -/
def refSymmetric (s : MSchema) : Bool :=
  (match s.schemaDef with
   | none => true
   | some sd => sd.roots.all fun rt => refHolds s rt.2 .schemaDefRef) &&
  (s.types.all fun t =>
    t.fields.all (fieldRefsOk s t.name) &&
    (t.inputFields.all fun f =>
      match f.type with
      | some tr => refHolds s (baseTypeName tr) (.inputFieldRef t.name f.name)
      | none => true) &&
    t.unionMembers.all fun m => refHolds s m (.typeRef t.name)) &&
  s.directiveDefs.all fun dd => dd.args.all fun a =>
    match a.type with
    | some tr => refHolds s (baseTypeName tr) (.directiveArgRef dd.name a.name)
    | none => true

deriving instance DecidableEq for Except

/-- A small document: `schema { query: Query }  type Query { a: Int }`. -/
def exampleDoc : List DefinitionNodeD :=
  [.schemaDefNode [] [(.query, "Query")],
   .objectTypeDef "Query" [] [⟨"a", [], .namedT "Int", []⟩]]

set_option maxRecDepth 20000 in
/-- C1: parsing `exampleDoc` yields a schema satisfying referencer symmetry,
but the mutable `addField` breaks it — the new field `Query.b` references
`Int` while `Int`'s referencer set does not list it, because `addField`
never calls `addReferencerToType`. -/
theorem addField_breaks_referencer_symmetry :
    (parse true exampleDoc).map refSymmetric = .ok true ∧
      ((parse true exampleDoc).bind fun s0 =>
        addField [s0] 0 "Query" "b" (.attachedType 0 (.named "Int"))).map
          (fun w => w.map refSymmetric) = .ok [false] := by
  constructor
  · decide
  · decide

/-- `MutableSchema.empty`: a fresh mutable schema with a schema definition. -/
def emptyMutable : MSchema := { newSchema true with schemaDef := some ⟨[], []⟩ }

/-- The parsed `exampleDoc` schema (the parse succeeds, as the C1 theorem
shows). -/
def s0ex : MSchema := (parse true exampleDoc).toOption.getD (newSchema true)

/-- Whether the result is an error. -/
def isErr {α : Type} : Except GErr α → Bool
  | .error _ => true
  | .ok _ => false

/-- The declared type of a field. -/
def fieldTypeOf (s : MSchema) (tname fname : String) : Option TypeRefD :=
  match lookupUserType s tname with
  | some t => (t.fields.find? (·.name == fname)).bind (·.type)
  | none => none

set_option maxRecDepth 20000 in
/-- C5: `setType` fails on a detached field, a detached type and a type of
another schema; on success the field's declared type becomes the new type —
but the old type's referencer set still lists the field (`Int` still holds
`Query.a`), and the new type's does not, contradicting the claim that the
old type's referencer set is updated. -/
theorem setType_contract_eval :
    isErr (setType [s0ex, emptyMutable] (.detachedField "a")
      (.attachedType 0 (.named "String"))) = true ∧
    isErr (setType [s0ex, emptyMutable] (.attachedField 0 "Query" "a")
      .detachedType) = true ∧
    isErr (setType [s0ex, emptyMutable] (.attachedField 0 "Query" "a")
      (.attachedType 1 (.named "String"))) = true ∧
    (setType [s0ex, emptyMutable] (.attachedField 0 "Query" "a")
      (.attachedType 0 (.named "String"))).map (fun w =>
        w.head?.map fun s1 =>
          (fieldTypeOf s1 "Query" "a",
           refHolds s1 "Int" (.fieldRef "Query" "a"),
           refHolds s1 "String" (.fieldRef "Query" "a"))) =
      .ok (some (some (.named "String"), true, false)) := by
  refine ⟨by decide, by decide, by decide, by decide⟩

/-- The structural content of a schema — everything the round-trip claim's
equality compares: schema definition (roots, directives), types (with their
fields, arguments, directive applications), and directive definitions.
Referencer sets are rebuilt by `copy` and are not part of this equality. -/
def schemaStruct (s : MSchema) : Option SchemaDefD × List NamedTypeD × List DirectiveDefD :=
  (s.schemaDef, s.types, s.directiveDefs)

theorem addRefTo_types (s : MSchema) (tn : String) (r : ElemRef) :
    (addRefTo s tn r).types = s.types := rfl

theorem addRefTo_schemaDef (s : MSchema) (tn : String) (r : ElemRef) :
    (addRefTo s tn r).schemaDef = s.schemaDef := rfl

theorem addRefTo_directiveDefs (s : MSchema) (tn : String) (r : ElemRef) :
    (addRefTo s tn r).directiveDefs = s.directiveDefs := rfl

theorem modifyTypes_schemaDef (s : MSchema) (tn : String) (fn : NamedTypeD → NamedTypeD) :
    (modifyTypes s tn fn).schemaDef = s.schemaDef := rfl

theorem modifyTypes_directiveDefs (s : MSchema) (tn : String) (fn : NamedTypeD → NamedTypeD) :
    (modifyTypes s tn fn).directiveDefs = s.directiveDefs := rfl

theorem typeOf_congr {a b : MSchema} (h : a.types = b.types) (n : String) :
    typeOf a n = typeOf b n := by
  unfold typeOf lookupUserType
  rw [h]

theorem lookupUserType_isSome_iff (s : MSchema) (n : String) :
    (lookupUserType s n).isSome = true ↔ n ∈ s.types.map NamedTypeD.name := by
  rw [lookupUserType, List.find?_isSome]
  constructor
  · rintro ⟨t, ht, hp⟩
    exact List.mem_map.mpr ⟨t, ht, by simpa using hp⟩
  · intro hmem
    obtain ⟨t, ht, hn⟩ := List.mem_map.mp hmem
    exact ⟨t, ht, by simp [hn]⟩

theorem typeOf_isSome_transfer {s d : MSchema}
    (h : d.types.map NamedTypeD.name = s.types.map NamedTypeD.name) {n : String}
    (hs : (typeOf s n).isSome = true) : (typeOf d n).isSome = true := by
  unfold typeOf at hs ⊢
  rcases hd : lookupUserType d n with _ | t
  · rcases hssome : lookupUserType s n with _ | t'
    · rw [hssome] at hs
      simp only [hd]
      rcases hb : builtInTypes.contains n
      · rw [hb] at hs
        simp at hs
      · simp [hb]
    · have : (lookupUserType d n).isSome = true := by
        rw [lookupUserType_isSome_iff, h, ← lookupUserType_isSome_iff, hssome]
        rfl
      rw [hd] at this
      simp at this
  · simp

theorem mapSetType_append {l : List NamedTypeD} {t : NamedTypeD}
    (h : t.name ∉ l.map NamedTypeD.name) : mapSetType l t = l ++ [t] := by
  rw [mapSetType, if_neg]
  intro hany
  obtain ⟨u, hu, hp⟩ := List.any_eq_true.mp hany
  exact h (List.mem_map.mpr ⟨u, hu, by simpa using hp⟩)

theorem mapSetField_append {l : List FieldDefD} {f : FieldDefD}
    (h : f.name ∉ l.map FieldDefD.name) : mapSetField l f = l ++ [f] := by
  rw [mapSetField, if_neg]
  intro hany
  obtain ⟨u, hu, hp⟩ := List.any_eq_true.mp hany
  exact h (List.mem_map.mpr ⟨u, hu, by simpa using hp⟩)

theorem mapSetInputField_append {l : List InputFieldDefD} {f : InputFieldDefD}
    (h : f.name ∉ l.map InputFieldDefD.name) : mapSetInputField l f = l ++ [f] := by
  rw [mapSetInputField, if_neg]
  intro hany
  obtain ⟨u, hu, hp⟩ := List.any_eq_true.mp hany
  exact h (List.mem_map.mpr ⟨u, hu, by simpa using hp⟩)

theorem mapSetArg_append {l : List ArgDefD} {a : ArgDefD}
    (h : a.name ∉ l.map ArgDefD.name) : mapSetArg l a = l ++ [a] := by
  rw [mapSetArg, if_neg]
  intro hany
  obtain ⟨u, hu, hp⟩ := List.any_eq_true.mp hany
  exact h (List.mem_map.mpr ⟨u, hu, by simpa using hp⟩)

theorem mapSetDirDef_append {l : List DirectiveDefD} {dd : DirectiveDefD}
    (h : dd.name ∉ l.map DirectiveDefD.name) : mapSetDirDef l dd = l ++ [dd] := by
  rw [mapSetDirDef, if_neg]
  intro hany
  obtain ⟨u, hu, hp⟩ := List.any_eq_true.mp hany
  exact h (List.mem_map.mpr ⟨u, hu, by simpa using hp⟩)

theorem mapSetRoot_append {l : List (SchemaRootK × String)} {r : SchemaRootK}
    {tn : String} (h : r ∉ l.map Prod.fst) : mapSetRoot l r tn = l ++ [(r, tn)] := by
  rw [mapSetRoot, if_neg]
  intro hany
  obtain ⟨u, hu, hp⟩ := List.any_eq_true.mp hany
  exact h (List.mem_map.mpr ⟨u, hu, by simpa using hp⟩)

theorem find?_append_cons {α : Type} (p : α → Bool) (l1 l2 : List α) (x : α)
    (h1 : ∀ y ∈ l1, p y = false) (hx : p x = true) :
    (l1 ++ x :: l2).find? p = some x := by
  induction l1 with
  | nil => simp [List.find?, hx]
  | cons a rest ih =>
    rw [List.cons_append, List.find?, h1 a (List.mem_cons_self _ _)]
    exact ih fun y hy => h1 y (List.mem_cons_of_mem _ hy)

theorem map_if_id {l : List NamedTypeD} {tname : String} {fn : NamedTypeD → NamedTypeD}
    (h : tname ∉ l.map NamedTypeD.name) :
    l.map (fun t => if t.name == tname then fn t else t) = l := by
  induction l with
  | nil => rfl
  | cons a rest ih =>
    rw [List.map_cons, List.mem_cons, not_or] at h
    rw [List.map_cons, if_neg, ih h.2]
    intro hc
    exact h.1 ((by simpa using hc : a.name = tname)).symm

theorem modifyTypes_entry {d : MSchema} {pre post : List NamedTypeD}
    {x : NamedTypeD} {tname : String} {fn : NamedTypeD → NamedTypeD}
    (hd : d.types = pre ++ x :: post) (hx : x.name = tname)
    (hpre : tname ∉ pre.map NamedTypeD.name) (hpost : tname ∉ post.map NamedTypeD.name) :
    (modifyTypes d tname fn).types = pre ++ fn x :: post := by
  show (d.types.map fun t => if t.name == tname then fn t else t) = pre ++ fn x :: post
  rw [hd, List.map_append, List.map_cons, map_if_id hpre, map_if_id hpost,
    if_pos (by simp [hx])]
/-- A type reference is well formed when present and its base name resolves. -/
def wfTypeRef (s : MSchema) : Option TypeRefD → Bool
  | some tr => (typeOf s (baseTypeName tr)).isSome
  | none => false

/-- An argument definition is well formed when its type reference is. -/
def wfArg (s : MSchema) (a : ArgDefD) : Bool := wfTypeRef s a.type

/-- A field definition is well formed when its type resolves and its argument
map has the key uniqueness every JavaScript `Map` state has. -/
def wfField (s : MSchema) (f : FieldDefD) : Bool :=
  wfTypeRef s f.type && decide (f.args.map ArgDefD.name).Nodup && f.args.all (wfArg s)

/-- An input field definition is well formed when its type resolves. -/
def wfInputField (s : MSchema) (f : InputFieldDefD) : Bool := wfTypeRef s f.type

/-- Kind consistency: only the variant's own component list is populated. -/
def wfKind (t : NamedTypeD) : Bool :=
  match t.kind with
  | .objectK => t.inputFields.isEmpty && t.unionMembers.isEmpty
  | .unionK => t.fields.isEmpty && t.inputFields.isEmpty
  | .inputObjectK => t.fields.isEmpty && t.unionMembers.isEmpty
  | .scalarK => t.fields.isEmpty && t.inputFields.isEmpty && t.unionMembers.isEmpty

/-- A named type is well formed: unique member names, resolving references,
kind consistency. -/
def wfType (s : MSchema) (t : NamedTypeD) : Bool :=
  decide (t.fields.map FieldDefD.name).Nodup &&
  decide (t.inputFields.map InputFieldDefD.name).Nodup &&
  t.fields.all (wfField s) &&
  t.inputFields.all (wfInputField s) &&
  t.unionMembers.all (fun m => (typeOf s m).isSome) &&
  wfKind t

/-- A directive definition is well formed. -/
def wfDirDef (s : MSchema) (dd : DirectiveDefD) : Bool :=
  decide (dd.args.map ArgDefD.name).Nodup && dd.args.all (wfArg s)

/-- A schema built from the supported subset: it has a schema definition,
every map has unique keys (a JavaScript `Map` invariant) and every type
reference resolves. -/
def wfSchema (s : MSchema) : Bool :=
  (match s.schemaDef with
   | some sd =>
     decide (sd.roots.map Prod.fst).Nodup &&
       sd.roots.all (fun rt => (typeOf s rt.2).isSome)
   | none => false) &&
  decide (s.types.map NamedTypeD.name).Nodup &&
  s.types.all (wfType s) &&
  decide (s.directiveDefs.map DirectiveDefD.name).Nodup &&
  s.directiveDefs.all (wfDirDef s)

theorem wfSchema_congr {a c : MSchema} (h : schemaStruct a = schemaStruct c) :
    wfSchema a = wfSchema c := by
  rcases a with ⟨fa, sda, tsa, dda, ra⟩
  rcases c with ⟨fc, sdc, tsc, ddc, rc⟩
  simp only [schemaStruct, Prod.mk.injEq] at h
  obtain ⟨h1, h2, h3⟩ := h
  subst h1; subst h2; subst h3
  rfl

theorem shellOf_name (t : NamedTypeD) : (shellOf t).name = t.name := rfl

theorem names_map_shellOf (l : List NamedTypeD) :
    (l.map shellOf).map NamedTypeD.name = l.map NamedTypeD.name := by
  rw [List.map_map]
  rfl

theorem shallow_phase (l : List NamedTypeD) :
    ∀ (d : MSchema),
      (∀ t ∈ l, t.name ∉ d.types.map NamedTypeD.name) →
      (l.map NamedTypeD.name).Nodup →
      (l.foldl (fun d t => addTypeDefinitionS (shellOf t) d) d).types
          = d.types ++ l.map shellOf ∧
      (l.foldl (fun d t => addTypeDefinitionS (shellOf t) d) d).schemaDef = d.schemaDef ∧
      (l.foldl (fun d t => addTypeDefinitionS (shellOf t) d) d).directiveDefs
          = d.directiveDefs := by
  induction l with
  | nil => intro d _ _; exact ⟨by simp, rfl, rfl⟩
  | cons t rest ih =>
    intro d hdisj hnodup
    rw [List.map_cons, List.nodup_cons] at hnodup
    rw [List.foldl_cons]
    have hty : (addTypeDefinitionS (shellOf t) d).types = d.types ++ [shellOf t] := by
      show mapSetType d.types (shellOf t) = _
      exact mapSetType_append (by rw [shellOf_name]; exact hdisj t (List.mem_cons_self _ _))
    have hdisj' : ∀ u ∈ rest, u.name ∉ (addTypeDefinitionS (shellOf t) d).types.map NamedTypeD.name := by
      intro u hu
      rw [hty, List.map_append, List.mem_append]
      rintro (hc | hc)
      · exact hdisj u (List.mem_cons_of_mem _ hu) hc
      · rw [List.map_singleton, List.mem_singleton, shellOf_name] at hc
        exact hnodup.1 (hc ▸ List.mem_map.mpr ⟨u, hu, rfl⟩)
    obtain ⟨h1, h2, h3⟩ := ih (addTypeDefinitionS (shellOf t) d) hdisj' hnodup.2
    refine ⟨?_, ?_, ?_⟩
    · rw [h1, hty, List.append_assoc]
      rfl
    · rw [h2]; rfl
    · rw [h3]; rfl

theorem roots_phase (roots : List (SchemaRootK × String)) :
    ∀ (d : MSchema) (acc : List (SchemaRootK × String)) (dirs : List DirectiveAppD),
      d.schemaDef = some ⟨acc, dirs⟩ →
      (acc.map Prod.fst ++ roots.map Prod.fst).Nodup →
      (∀ rt ∈ roots, (typeOf d rt.2).isSome = true) →
      ∃ d', roots.foldlM (fun d rt => addRootM rt.1 rt.2 d) d = .ok d' ∧
        d'.schemaDef = some ⟨acc ++ roots, dirs⟩ ∧
        d'.types = d.types ∧ d'.directiveDefs = d.directiveDefs := by
  induction roots with
  | nil =>
    intro d acc dirs hsd _ _
    exact ⟨d, rfl, by simpa using hsd, rfl, rfl⟩
  | cons r rest ih =>
    intro d acc dirs hsd hnodup hres
    obtain ⟨x, hx⟩ := Option.isSome_iff_exists.mp (hres r (List.mem_cons_self _ _))
    have hkey : r.1 ∉ acc.map Prod.fst := by
      intro hc
      have := (List.nodup_append.mp hnodup).2.2
      exact this hc (by rw [List.map_cons]; exact List.mem_cons_self _ _)
    have hstep : addRootM r.1 r.2 d =
        .ok (addRefTo { d with schemaDef := some ⟨acc ++ [(r.1, r.2)], dirs⟩ } r.2
          .schemaDefRef) := by
      simp only [addRootM, hsd, hx]
      rw [mapSetRoot_append hkey]
    have hsd2 : (addRefTo { d with schemaDef := some ⟨acc ++ [(r.1, r.2)], dirs⟩ } r.2
        .schemaDefRef).schemaDef = some ⟨acc ++ [(r.1, r.2)], dirs⟩ := rfl
    have hty2 : (addRefTo { d with schemaDef := some ⟨acc ++ [(r.1, r.2)], dirs⟩ } r.2
        .schemaDefRef).types = d.types := rfl
    have hnodup2 : ((acc ++ [(r.1, r.2)]).map Prod.fst ++ rest.map Prod.fst).Nodup := by
      rw [List.map_append, List.map_singleton, List.append_assoc]
      simpa using hnodup
    have hres2 : ∀ rt ∈ rest,
        (typeOf (addRefTo { d with schemaDef := some ⟨acc ++ [(r.1, r.2)], dirs⟩ } r.2
          .schemaDefRef) rt.2).isSome = true := by
      intro rt hrt
      rw [typeOf_congr hty2]
      exact hres rt (List.mem_cons_of_mem _ hrt)
    obtain ⟨d', hfold, h1, h2, h3⟩ :=
      ih (addRefTo { d with schemaDef := some ⟨acc ++ [(r.1, r.2)], dirs⟩ } r.2
        .schemaDefRef) (acc ++ [(r.1, r.2)]) dirs hsd2 hnodup2 hres2
    refine ⟨d', ?_, ?_, ?_, ?_⟩
    · rw [List.foldlM_cons, hstep]
      simpa using hfold
    · rw [h1, List.append_assoc]
      rfl
    · rw [h2, hty2]
    · rw [h3]; rfl

theorem copyArgDef_ok {s d : MSchema} {b : Bool} {a : ArgDefD}
    (hnames : d.types.map NamedTypeD.name = s.types.map NamedTypeD.name)
    (hwf : wfArg s a = true) : copyArgDef b d a = .ok a := by
  rcases a with ⟨an, ty, dv, ads⟩
  rcases ty with _ | tr
  · simp [wfArg, wfTypeRef] at hwf
  · have hres : (typeOf s (baseTypeName tr)).isSome = true := by
      simpa [wfArg, wfTypeRef] using hwf
    simp [copyArgDef, typeOf_isSome_transfer hnames hres]

theorem copyArgDefs_ok {s d : MSchema} {b : Bool} {args : List ArgDefD}
    (hnames : d.types.map NamedTypeD.name = s.types.map NamedTypeD.name)
    (hwf : args.all (wfArg s) = true) : copyArgDefs b d args = .ok args := by
  rw [copyArgDefs]
  induction args with
  | nil => rfl
  | cons a rest ih =>
    rw [List.all_cons, Bool.and_eq_true] at hwf
    rw [List.mapM_cons, copyArgDef_ok hnames hwf.1, ih hwf.2]
    rfl

theorem addArgRefs_types (mk : String → ElemRef) (args : List ArgDefD) :
    ∀ (d : MSchema), (addArgRefs mk d args).types = d.types := by
  induction args with
  | nil => intro d; rfl
  | cons a rest ih =>
    intro d
    rw [addArgRefs, List.foldl_cons]
    rcases a with ⟨an, ty, dv, ads⟩
    rcases ty with _ | tr
    · exact ih d
    · exact ih _

theorem addArgRefs_schemaDef (mk : String → ElemRef) (args : List ArgDefD) :
    ∀ (d : MSchema), (addArgRefs mk d args).schemaDef = d.schemaDef := by
  induction args with
  | nil => intro d; rfl
  | cons a rest ih =>
    intro d
    rw [addArgRefs, List.foldl_cons]
    rcases a with ⟨an, ty, dv, ads⟩
    rcases ty with _ | tr
    · exact ih d
    · exact ih _

theorem addArgRefs_directiveDefs (mk : String → ElemRef) (args : List ArgDefD) :
    ∀ (d : MSchema), (addArgRefs mk d args).directiveDefs = d.directiveDefs := by
  induction args with
  | nil => intro d; rfl
  | cons a rest ih =>
    intro d
    rw [addArgRefs, List.foldl_cons]
    rcases a with ⟨an, ty, dv, ads⟩
    rcases ty with _ | tr
    · exact ih d
    · exact ih _

theorem foldl_mapSetField_acc (fields : List FieldDefD) :
    ∀ (acc : List FieldDefD),
      (∀ f ∈ fields, f.name ∉ acc.map FieldDefD.name) →
      (fields.map FieldDefD.name).Nodup →
      fields.foldl mapSetField acc = acc ++ fields := by
  induction fields with
  | nil => intro acc _ _; simp
  | cons f rest ih =>
    intro acc hdisj hnodup
    rw [List.map_cons, List.nodup_cons] at hnodup
    rw [List.foldl_cons, mapSetField_append (hdisj f (List.mem_cons_self _ _)),
      ih (acc ++ [f]) ?_ hnodup.2, List.append_assoc]
    · rfl
    · intro u hu
      rw [List.map_append, List.mem_append, List.map_singleton, List.mem_singleton]
      rintro (hc | hc)
      · exact hdisj u (List.mem_cons_of_mem _ hu) hc
      · exact hnodup.1 (hc ▸ List.mem_map.mpr ⟨u, hu, rfl⟩)

theorem foldl_mapSetInputField_acc (fields : List InputFieldDefD) :
    ∀ (acc : List InputFieldDefD),
      (∀ f ∈ fields, f.name ∉ acc.map InputFieldDefD.name) →
      (fields.map InputFieldDefD.name).Nodup →
      fields.foldl mapSetInputField acc = acc ++ fields := by
  induction fields with
  | nil => intro acc _ _; simp
  | cons f rest ih =>
    intro acc hdisj hnodup
    rw [List.map_cons, List.nodup_cons] at hnodup
    rw [List.foldl_cons, mapSetInputField_append (hdisj f (List.mem_cons_self _ _)),
      ih (acc ++ [f]) ?_ hnodup.2, List.append_assoc]
    · rfl
    · intro u hu
      rw [List.map_append, List.mem_append, List.map_singleton, List.mem_singleton]
      rintro (hc | hc)
      · exact hdisj u (List.mem_cons_of_mem _ hu) hc
      · exact hnodup.1 (hc ▸ List.mem_map.mpr ⟨u, hu, rfl⟩)

theorem copyFieldDefinitionM_ok {s d : MSchema} {b : Bool} {tname : String}
    {pre post : List NamedTypeD} {entry : NamedTypeD} {f : FieldDefD}
    (hd : d.types = pre ++ entry :: post) (hen : entry.name = tname)
    (hpre : tname ∉ pre.map NamedTypeD.name) (hpost : tname ∉ post.map NamedTypeD.name)
    (hnames : d.types.map NamedTypeD.name = s.types.map NamedTypeD.name)
    (hwf : wfField s f = true) :
    ∃ d', copyFieldDefinitionM b tname f d = .ok d' ∧
      d'.types = pre ++ { entry with fields := mapSetField entry.fields f } :: post ∧
      d'.schemaDef = d.schemaDef ∧ d'.directiveDefs = d.directiveDefs := by
  obtain ⟨fn, fty, fargs, fdirs⟩ := f
  rcases fty with _ | tr
  · simp [wfField, wfTypeRef] at hwf
  · simp only [wfField, wfTypeRef, Bool.and_eq_true] at hwf
    obtain ⟨⟨htr, _⟩, hargswf⟩ := hwf
    have hresd := typeOf_isSome_transfer hnames htr
    have hargs : copyArgDefs b d fargs = .ok fargs := copyArgDefs_ok hnames hargswf
    refine ⟨modifyTypes
        (addRefTo (addArgRefs (fun an => .fieldArgRef tname fn an) d fargs)
          (baseTypeName tr) (.fieldRef tname fn))
        tname fun t =>
        { t with fields := mapSetField t.fields ⟨fn, some tr, fargs, fdirs⟩ }, ?_, ?_, ?_, ?_⟩
    · simp only [copyFieldDefinitionM, hresd, if_true, hargs]
      rfl
    · refine (modifyTypes_entry ?_ hen hpre hpost)
      rw [addRefTo_types, addArgRefs_types, hd]
    · rw [modifyTypes_schemaDef, addRefTo_schemaDef, addArgRefs_schemaDef]
    · rw [modifyTypes_directiveDefs, addRefTo_directiveDefs, addArgRefs_directiveDefs]

theorem copyInputFieldDefM_ok {s d : MSchema} {b : Bool} {tname : String}
    {pre post : List NamedTypeD} {entry : NamedTypeD} {f : InputFieldDefD}
    (hd : d.types = pre ++ entry :: post) (hen : entry.name = tname)
    (hpre : tname ∉ pre.map NamedTypeD.name) (hpost : tname ∉ post.map NamedTypeD.name)
    (hnames : d.types.map NamedTypeD.name = s.types.map NamedTypeD.name)
    (hwf : wfInputField s f = true) :
    ∃ d', copyInputFieldDefM b tname f d = .ok d' ∧
      d'.types = pre ++ { entry with inputFields := mapSetInputField entry.inputFields f } :: post ∧
      d'.schemaDef = d.schemaDef ∧ d'.directiveDefs = d.directiveDefs := by
  obtain ⟨fn, fty, fdirs⟩ := f
  rcases fty with _ | tr
  · simp [wfInputField, wfTypeRef] at hwf
  · simp only [wfInputField, wfTypeRef] at hwf
    have hresd := typeOf_isSome_transfer hnames hwf
    refine ⟨modifyTypes
        (addRefTo d (baseTypeName tr) (.inputFieldRef tname fn)) tname fun t =>
        { t with inputFields := mapSetInputField t.inputFields ⟨fn, some tr, fdirs⟩ },
        ?_, ?_, ?_, ?_⟩
    · simp only [copyInputFieldDefM, hresd, if_true]
    · refine (modifyTypes_entry ?_ hen hpre hpost)
      rw [addRefTo_types, hd]
    · rw [modifyTypes_schemaDef, addRefTo_schemaDef]
    · rw [modifyTypes_directiveDefs, addRefTo_directiveDefs]

theorem addTypeToUnionM_ok {s d : MSchema} {tname : String}
    {pre post : List NamedTypeD} {entry : NamedTypeD} {m : String}
    (hd : d.types = pre ++ entry :: post) (hen : entry.name = tname)
    (hpre : tname ∉ pre.map NamedTypeD.name) (hpost : tname ∉ post.map NamedTypeD.name)
    (hnames : d.types.map NamedTypeD.name = s.types.map NamedTypeD.name)
    (hwf : (typeOf s m).isSome = true) :
    ∃ d', addTypeToUnionM tname m d = .ok d' ∧
      d'.types = pre ++ { entry with unionMembers := entry.unionMembers ++ [m] } :: post ∧
      d'.schemaDef = d.schemaDef ∧ d'.directiveDefs = d.directiveDefs := by
  have hresd := typeOf_isSome_transfer hnames hwf
  obtain ⟨x, hx⟩ := Option.isSome_iff_exists.mp hresd
  refine ⟨addRefTo (modifyTypes d tname fun t =>
      { t with unionMembers := t.unionMembers ++ [m] }) m (.typeRef tname), ?_, ?_, ?_, ?_⟩
  · simp only [addTypeToUnionM, hx]
  · rw [addRefTo_types]
    exact modifyTypes_entry hd hen hpre hpost
  · rw [addRefTo_schemaDef, modifyTypes_schemaDef]
  · rw [addRefTo_directiveDefs, modifyTypes_directiveDefs]

theorem foldlM_entry {α : Type} (tname : String) (N : List String)
    (step : α → MSchema → Except GErr MSchema)
    (upd : NamedTypeD → α → NamedTypeD) (P : α → Prop)
    (hname : ∀ e a, (upd e a).name = e.name)
    (hstep : ∀ (d : MSchema) (pre post : List NamedTypeD) (e : NamedTypeD) (a : α),
      P a → d.types = pre ++ e :: post → e.name = tname →
      tname ∉ pre.map NamedTypeD.name → tname ∉ post.map NamedTypeD.name →
      d.types.map NamedTypeD.name = N →
      ∃ d', step a d = .ok d' ∧ d'.types = pre ++ upd e a :: post ∧
        d'.schemaDef = d.schemaDef ∧ d'.directiveDefs = d.directiveDefs)
    (items : List α) :
    ∀ (d : MSchema) (pre post : List NamedTypeD) (e : NamedTypeD),
      (∀ a ∈ items, P a) →
      d.types = pre ++ e :: post → e.name = tname →
      tname ∉ pre.map NamedTypeD.name → tname ∉ post.map NamedTypeD.name →
      d.types.map NamedTypeD.name = N →
      ∃ d', items.foldlM (fun d a => step a d) d = .ok d' ∧
        d'.types = pre ++ items.foldl upd e :: post ∧
        d'.schemaDef = d.schemaDef ∧ d'.directiveDefs = d.directiveDefs := by
  induction items with
  | nil =>
    intro d pre post e _ hd hen hpre hpost _
    exact ⟨d, rfl, by rw [List.foldl_nil]; exact hd, rfl, rfl⟩
  | cons a rest ih =>
    intro d pre post e hP hd hen hpre hpost hN
    obtain ⟨d1, hstep1, hty1, hsd1, hdd1⟩ :=
      hstep d pre post e a (hP a (List.mem_cons_self _ _)) hd hen hpre hpost hN
    have hN1 : d1.types.map NamedTypeD.name = N := by
      rw [hty1, ← hN, hd]
      simp [hname]
    obtain ⟨d', hfold, hty, hsd, hdd⟩ :=
      ih d1 pre post (upd e a) (fun x hx => hP x (List.mem_cons_of_mem _ hx)) hty1
        (by rw [hname]; exact hen) hpre hpost hN1
    refine ⟨d', ?_, ?_, ?_, ?_⟩
    · rw [List.foldlM_cons, hstep1]
      exact hfold
    · rw [hty, List.foldl_cons]
    · rw [hsd, hsd1]
    · rw [hdd, hdd1]

theorem foldl_updFields (fs : List FieldDefD) :
    ∀ (e : NamedTypeD),
      fs.foldl (fun e f => { e with fields := mapSetField e.fields f }) e
        = { e with fields := fs.foldl mapSetField e.fields } := by
  induction fs with
  | nil => intro e; rfl
  | cons f rest ih =>
    intro e
    rw [List.foldl_cons, ih, List.foldl_cons]

theorem foldl_updInputFields (fs : List InputFieldDefD) :
    ∀ (e : NamedTypeD),
      fs.foldl (fun e f => { e with inputFields := mapSetInputField e.inputFields f }) e
        = { e with inputFields := fs.foldl mapSetInputField e.inputFields } := by
  induction fs with
  | nil => intro e; rfl
  | cons f rest ih =>
    intro e
    rw [List.foldl_cons, ih, List.foldl_cons]

theorem foldl_updMembers (ms : List String) :
    ∀ (e : NamedTypeD),
      ms.foldl (fun e m => { e with unionMembers := e.unionMembers ++ [m] }) e
        = { e with unionMembers := e.unionMembers ++ ms } := by
  induction ms with
  | nil => intro e; simp
  | cons m rest ih =>
    intro e
    rw [List.foldl_cons, ih]
    simp

theorem copyNamedTypeInnerM_ok {s : MSchema} (b : Bool) {t : NamedTypeD}
    {pre post : List NamedTypeD} (d : MSchema)
    (hd : d.types = pre ++ shellOf t :: post)
    (hpre : t.name ∉ pre.map NamedTypeD.name) (hpost : t.name ∉ post.map NamedTypeD.name)
    (hnames : d.types.map NamedTypeD.name = s.types.map NamedTypeD.name)
    (hwf : wfType s t = true) :
    ∃ d', copyNamedTypeInnerM b t d = .ok d' ∧ d'.types = pre ++ t :: post ∧
      d'.schemaDef = d.schemaDef ∧ d'.directiveDefs = d.directiveDefs := by
  obtain ⟨tk, tn, tdirs, tfs, tifs, tms⟩ := t
  simp only [shellOf] at hd
  simp only at hpre hpost
  simp only [wfType, wfKind, Bool.and_eq_true, decide_eq_true_eq, List.all_eq_true] at hwf
  obtain ⟨⟨⟨⟨⟨hfnd, hifnd⟩, hfall⟩, hifall⟩, hmall⟩, hkind⟩ := hwf
  have hlook : lookupUserType d tn =
      some (⟨tk, tn, [], [], [], []⟩ : NamedTypeD) := by
    rw [lookupUserType, hd]
    refine find?_append_cons _ _ _ _ ?_ (beq_self_eq_true _)
    intro y hy
    refine beq_eq_false_iff_ne.mpr fun hc => hpre ?_
    exact hc ▸ List.mem_map.mpr ⟨y, hy, rfl⟩
  have hd1 : (modifyTypes d tn fun shell =>
      { shell with appliedDirectives := shell.appliedDirectives ++ tdirs }).types
      = pre ++ (⟨tk, tn, tdirs, [], [], []⟩ : NamedTypeD) :: post :=
    modifyTypes_entry hd rfl hpre hpost
  have hnames1 : (modifyTypes d tn fun shell =>
      { shell with appliedDirectives := shell.appliedDirectives ++ tdirs }).types.map
        NamedTypeD.name = s.types.map NamedTypeD.name := by
    rw [hd1, ← hnames, hd]
    simp
  simp only [copyNamedTypeInnerM, hlook]
  rcases tk with _ | _ | _ | _
  · -- scalarK
    simp only [List.isEmpty_iff, Bool.and_eq_true] at hkind
    obtain ⟨⟨h1, h2⟩, h3⟩ := hkind
    subst h1; subst h2; subst h3
    exact ⟨_, rfl, hd1, modifyTypes_schemaDef _ _ _, modifyTypes_directiveDefs _ _ _⟩
  · -- objectK
    simp only [List.isEmpty_iff, Bool.and_eq_true] at hkind
    obtain ⟨h2, h3⟩ := hkind
    subst h2; subst h3
    obtain ⟨d', hfold, hty, hsd, hdd⟩ :=
      foldlM_entry tn (s.types.map NamedTypeD.name)
        (fun f d => copyFieldDefinitionM b tn f d)
        (fun e f => { e with fields := mapSetField e.fields f })
        (fun f => wfField s f = true) (fun _ _ => rfl)
        (fun d pre post e f hP hd hen hpre hpost hN =>
          copyFieldDefinitionM_ok hd hen hpre hpost hN hP)
        tfs _ pre post _ hfall hd1 rfl hpre hpost hnames1
    refine ⟨d', hfold, ?_, hsd.trans (modifyTypes_schemaDef _ _ _),
      hdd.trans (modifyTypes_directiveDefs _ _ _)⟩
    rw [hty, foldl_updFields]
    have hfs : tfs.foldl mapSetField ([] : List FieldDefD) = tfs := by
      simpa using foldl_mapSetField_acc tfs [] (by simp) hfnd
    simp [hfs]
  · -- unionK
    simp only [List.isEmpty_iff, Bool.and_eq_true] at hkind
    obtain ⟨h1, h2⟩ := hkind
    subst h1; subst h2
    obtain ⟨d', hfold, hty, hsd, hdd⟩ :=
      foldlM_entry tn (s.types.map NamedTypeD.name)
        (fun m d => addTypeToUnionM tn m d)
        (fun e m => { e with unionMembers := e.unionMembers ++ [m] })
        (fun m => (typeOf s m).isSome = true) (fun _ _ => rfl)
        (fun d pre post e m hP hd hen hpre hpost hN =>
          addTypeToUnionM_ok hd hen hpre hpost hN hP)
        tms _ pre post _ hmall hd1 rfl hpre hpost hnames1
    refine ⟨d', hfold, ?_, hsd.trans (modifyTypes_schemaDef _ _ _),
      hdd.trans (modifyTypes_directiveDefs _ _ _)⟩
    rw [hty, foldl_updMembers]
    simp
  · -- inputObjectK
    simp only [List.isEmpty_iff, Bool.and_eq_true] at hkind
    obtain ⟨h1, h3⟩ := hkind
    subst h1; subst h3
    obtain ⟨d', hfold, hty, hsd, hdd⟩ :=
      foldlM_entry tn (s.types.map NamedTypeD.name)
        (fun f d => copyInputFieldDefM b tn f d)
        (fun e f => { e with inputFields := mapSetInputField e.inputFields f })
        (fun f => wfInputField s f = true) (fun _ _ => rfl)
        (fun d pre post e f hP hd hen hpre hpost hN =>
          copyInputFieldDefM_ok hd hen hpre hpost hN hP)
        tifs _ pre post _ hifall hd1 rfl hpre hpost hnames1
    refine ⟨d', hfold, ?_, hsd.trans (modifyTypes_schemaDef _ _ _),
      hdd.trans (modifyTypes_directiveDefs _ _ _)⟩
    rw [hty, foldl_updInputFields]
    have hfs : tifs.foldl mapSetInputField ([] : List InputFieldDefD) = tifs := by
      simpa using foldl_mapSetInputField_acc tifs [] (by simp) hifnd
    simp [hfs]

theorem inner_phase {s : MSchema} (b : Bool) (ts : List NamedTypeD) :
    ∀ (d : MSchema) (pre : List NamedTypeD),
      d.types = pre ++ ts.map shellOf →
      (pre.map NamedTypeD.name ++ ts.map NamedTypeD.name).Nodup →
      d.types.map NamedTypeD.name = s.types.map NamedTypeD.name →
      (∀ t ∈ ts, wfType s t = true) →
      ∃ d', ts.foldlM (fun d t => copyNamedTypeInnerM b t d) d = .ok d' ∧
        d'.types = pre ++ ts ∧
        d'.schemaDef = d.schemaDef ∧ d'.directiveDefs = d.directiveDefs := by
  induction ts with
  | nil =>
    intro d pre hd _ _ _
    exact ⟨d, rfl, by simpa using hd, rfl, rfl⟩
  | cons t rest ih =>
    intro d pre hd hnodup hnames hall
    rw [List.map_cons] at hd
    rw [List.map_cons] at hnodup
    have hmid : t.name ∉ pre.map NamedTypeD.name := by
      intro hc
      exact (List.nodup_append.mp hnodup).2.2 hc (List.mem_cons_self _ _)
    have hrest : t.name ∉ (rest.map shellOf).map NamedTypeD.name := by
      rw [names_map_shellOf]
      exact (List.nodup_cons.mp (List.nodup_append.mp hnodup).2.1).1
    obtain ⟨d1, hstep, hty1, hsd1, hdd1⟩ :=
      copyNamedTypeInnerM_ok b d hd hmid hrest hnames (hall t (List.mem_cons_self _ _))
    have hty1' : d1.types = (pre ++ [t]) ++ rest.map shellOf := by
      rw [hty1, List.append_assoc]
      rfl
    have hnodup1 : ((pre ++ [t]).map NamedTypeD.name ++ rest.map NamedTypeD.name).Nodup := by
      rw [List.map_append, List.map_singleton, List.append_assoc]
      simpa using hnodup
    have hnames1 : d1.types.map NamedTypeD.name = s.types.map NamedTypeD.name := by
      rw [hty1, ← hnames, hd]
      simp [shellOf]
    obtain ⟨d', hfold, hty, hsd, hdd⟩ :=
      ih d1 (pre ++ [t]) hty1' hnodup1 hnames1 (fun x hx => hall x (List.mem_cons_of_mem _ hx))
    refine ⟨d', ?_, ?_, ?_, ?_⟩
    · rw [List.foldlM_cons, hstep]
      exact hfold
    · rw [hty, List.append_assoc]
      rfl
    · rw [hsd, hsd1]
    · rw [hdd, hdd1]

theorem copyDirectiveDefM_ok {s d : MSchema} {b : Bool} {dd : DirectiveDefD}
    (hnames : d.types.map NamedTypeD.name = s.types.map NamedTypeD.name)
    (hkey : dd.name ∉ d.directiveDefs.map DirectiveDefD.name)
    (hwf : wfDirDef s dd = true) :
    ∃ d', copyDirectiveDefM b dd d = .ok d' ∧
      d'.directiveDefs = d.directiveDefs ++ [dd] ∧
      d'.types = d.types ∧ d'.schemaDef = d.schemaDef := by
  obtain ⟨dn, dargs⟩ := dd
  simp only [wfDirDef, Bool.and_eq_true] at hwf
  have hargs : copyArgDefs b d dargs = .ok dargs := copyArgDefs_ok hnames hwf.2
  refine ⟨{ addArgRefs (fun an => .directiveArgRef dn an) d dargs with
      directiveDefs :=
        mapSetDirDef (addArgRefs (fun an => .directiveArgRef dn an) d dargs).directiveDefs
          ⟨dn, dargs⟩ }, ?_, ?_, ?_, ?_⟩
  · simp only [copyDirectiveDefM, hargs]
    rfl
  · show mapSetDirDef (addArgRefs (fun an => .directiveArgRef dn an) d dargs).directiveDefs
        ⟨dn, dargs⟩ = _
    rw [addArgRefs_directiveDefs]
    exact mapSetDirDef_append hkey
  · show (addArgRefs (fun an => .directiveArgRef dn an) d dargs).types = d.types
    exact addArgRefs_types _ _ _
  · show (addArgRefs (fun an => .directiveArgRef dn an) d dargs).schemaDef = d.schemaDef
    exact addArgRefs_schemaDef _ _ _

theorem dirdefs_phase {s : MSchema} (b : Bool) (dds : List DirectiveDefD) :
    ∀ (d : MSchema) (acc : List DirectiveDefD),
      d.directiveDefs = acc →
      d.types.map NamedTypeD.name = s.types.map NamedTypeD.name →
      (acc.map DirectiveDefD.name ++ dds.map DirectiveDefD.name).Nodup →
      (∀ dd ∈ dds, wfDirDef s dd = true) →
      ∃ d', dds.foldlM (fun d dd => copyDirectiveDefM b dd d) d = .ok d' ∧
        d'.directiveDefs = acc ++ dds ∧
        d'.types = d.types ∧ d'.schemaDef = d.schemaDef := by
  induction dds with
  | nil =>
    intro d acc hacc _ _ _
    exact ⟨d, rfl, by simpa using hacc, rfl, rfl⟩
  | cons dd rest ih =>
    intro d acc hacc hnames hnodup hall
    rw [List.map_cons] at hnodup
    have hkey : dd.name ∉ d.directiveDefs.map DirectiveDefD.name := by
      rw [hacc]
      intro hc
      exact (List.nodup_append.mp hnodup).2.2 hc (List.mem_cons_self _ _)
    obtain ⟨d1, hstep, hdd1, hty1, hsd1⟩ :=
      copyDirectiveDefM_ok hnames hkey (hall dd (List.mem_cons_self _ _))
    have hacc1 : d1.directiveDefs = acc ++ [dd] := by rw [hdd1, hacc]
    have hnames1 : d1.types.map NamedTypeD.name = s.types.map NamedTypeD.name := by
      rw [hty1]; exact hnames
    have hnodup1 : ((acc ++ [dd]).map DirectiveDefD.name ++ rest.map DirectiveDefD.name).Nodup := by
      rw [List.map_append, List.map_singleton, List.append_assoc]
      simpa using hnodup
    obtain ⟨d', hfold, h1, h2, h3⟩ :=
      ih d1 (acc ++ [dd]) hacc1 hnames1 hnodup1 (fun x hx => hall x (List.mem_cons_of_mem _ hx))
    refine ⟨d', ?_, ?_, ?_, ?_⟩
    · rw [List.foldlM_cons, hstep]
      exact hfold
    · rw [h1, List.append_assoc]
      rfl
    · rw [h2, hty1]
    · rw [h3, hsd1]

theorem except_bind_ok {α β : Type} {a : α} {f : α → Except GErr β} :
    (Except.ok a >>= f) = f a := rfl

theorem copySchema_ok (b : Bool) (s : MSchema) (h : wfSchema s = true) :
    ∃ s', copySchema s b = .ok s' ∧ schemaStruct s' = schemaStruct s := by
  rcases hs : s.schemaDef with _ | sd
  · rw [wfSchema, hs] at h
    simp at h
  · rw [wfSchema, hs] at h
    simp only [Bool.and_eq_true, decide_eq_true_eq, List.all_eq_true] at h
    obtain ⟨⟨⟨⟨⟨hrootnd, hrootres⟩, htynd⟩, hallT⟩, hddnd⟩, hallD⟩ := h
    -- phase 1: shallow type shells
    obtain ⟨h1t, h1s, h1d⟩ :=
      shallow_phase s.types ({ newSchema b with schemaDef := some (⟨[], []⟩ : SchemaDefD) })
        (by intro t ht; simp [newSchema]) htynd
    have hnames1 : (s.types.foldl (fun d t => addTypeDefinitionS (shellOf t) d)
        { newSchema b with schemaDef := some (⟨[], []⟩ : SchemaDefD) }).types.map
          NamedTypeD.name = s.types.map NamedTypeD.name := by
      rw [h1t, List.map_append, names_map_shellOf]
      rfl
    -- phase 2: roots
    obtain ⟨d2, h2e, h2s, h2t, h2d⟩ :=
      roots_phase sd.roots
        (s.types.foldl (fun d t => addTypeDefinitionS (shellOf t) d)
          { newSchema b with schemaDef := some (⟨[], []⟩ : SchemaDefD) }) [] []
        (by rw [h1s]) (by simpa using hrootnd)
        (fun rt hrt => typeOf_isSome_transfer hnames1 (hrootres rt hrt))
    -- phase 3: merge the schema definition directives
    have h3s : ({ d2 with schemaDef := d2.schemaDef.map fun sd' =>
        ⟨sd'.roots, sd'.appliedDirectives ++ sd.appliedDirectives⟩ } : MSchema).schemaDef
        = some sd := by
      show d2.schemaDef.map _ = some sd
      rw [h2s]
      rfl
    -- phase 4: inner copy of each type
    have hd3types : ({ d2 with schemaDef := d2.schemaDef.map fun sd' =>
        ⟨sd'.roots, sd'.appliedDirectives ++ sd.appliedDirectives⟩ } : MSchema).types
        = [] ++ s.types.map shellOf := by
      show d2.types = _
      rw [h2t, h1t]
      rfl
    have hnames3 : ({ d2 with schemaDef := d2.schemaDef.map fun sd' =>
        ⟨sd'.roots, sd'.appliedDirectives ++ sd.appliedDirectives⟩ } : MSchema).types.map
          NamedTypeD.name = s.types.map NamedTypeD.name := by
      show d2.types.map NamedTypeD.name = _
      rw [h2t]
      exact hnames1
    obtain ⟨d4, h4e, h4t, h4s, h4d⟩ :=
      inner_phase b s.types
        ({ d2 with schemaDef := d2.schemaDef.map fun sd' =>
          ⟨sd'.roots, sd'.appliedDirectives ++ sd.appliedDirectives⟩ }) []
        hd3types (by simpa using htynd) hnames3 hallT
    -- phase 5: directive definitions
    have hdd4 : d4.directiveDefs = [] := by
      rw [h4d]
      show d2.directiveDefs = []
      rw [h2d, h1d]
      rfl
    have hnames4 : d4.types.map NamedTypeD.name = s.types.map NamedTypeD.name := by
      rw [h4t]
      simp
    obtain ⟨d5, h5e, h5dd, h5t, h5s⟩ :=
      dirdefs_phase b s.directiveDefs d4 [] hdd4 hnames4 (by simpa using hddnd) hallD
    refine ⟨d5, ?_, ?_⟩
    · simp only [copySchema, hs]
      rw [h2e, except_bind_ok, h4e, except_bind_ok, h5e, except_bind_ok]
    · show (d5.schemaDef, d5.types, d5.directiveDefs) = (s.schemaDef, s.types, s.directiveDefs)
      rw [Prod.mk.injEq, Prod.mk.injEq]
      refine ⟨?_, ?_, ?_⟩
      · rw [h5s, h4s, h3s, hs]
      · rw [h5t, h4t]
        rfl
      · rw [h5dd]
        rfl

/-- C2: for a schema of the supported subset (it has a schema definition,
its maps have unique keys, and its type references resolve), `toImmutable`
followed by `toMutable` succeeds and returns a schema with the same schema
definition (roots and applied directives), the same types (with their
fields, arguments and directive applications) and the same directive
definitions — and likewise in the other direction. -/
theorem to_mutable_to_immutable_roundtrip (x : MSchema) (h : wfSchema x = true) :
    (∃ y z, toImmutable x = .ok y ∧ toMutable y = .ok z ∧
      schemaStruct z = schemaStruct x) ∧
    (∃ y z, toMutable x = .ok y ∧ toImmutable y = .ok z ∧
      schemaStruct z = schemaStruct x) := by
  obtain ⟨y1, hy1, hs1⟩ := copySchema_ok false x h
  have hw1 : wfSchema y1 = true := by rw [wfSchema_congr hs1]; exact h
  obtain ⟨z1, hz1, hsz1⟩ := copySchema_ok true y1 hw1
  obtain ⟨y2, hy2, hs2⟩ := copySchema_ok true x h
  have hw2 : wfSchema y2 = true := by rw [wfSchema_congr hs2]; exact h
  obtain ⟨z2, hz2, hsz2⟩ := copySchema_ok false y2 hw2
  exact ⟨⟨y1, z1, hy1, hz1, hsz1.trans hs1⟩, ⟨y2, z2, hy2, hz2, hsz2.trans hs2⟩⟩

set_option maxRecDepth 20000 in
/-- Witness for C2: the parsed example document is well formed and the
round trip preserves its structure in both directions. -/
theorem to_mutable_to_immutable_roundtrip_witness :
    wfSchema s0ex = true ∧
    ((∃ y z, toImmutable s0ex = .ok y ∧ toMutable y = .ok z ∧
        schemaStruct z = schemaStruct s0ex) ∧
     (∃ y z, toMutable s0ex = .ok y ∧ toImmutable y = .ok z ∧
        schemaStruct z = schemaStruct s0ex)) :=
  ⟨by decide, to_mutable_to_immutable_roundtrip s0ex (by decide)⟩

end SOM
